import Mathlib

/-!
Shallow embedding of the autonomous delivery agent's planning core
(src/environment.py and src/planners.py), together with theorems settling
the specification claims.

Conventions of the embedding:
* Python ints are `Int` (coordinates, time steps) except costs: the terrain
  array only ever holds `TerrainType` values {1, 3, 5, 10} (it is initialised
  to ROAD = 1 and `set_terrain` writes `TerrainType(...).value`), so terrain
  costs and accumulated node costs are modelled as `Nat`.
* numpy arrays become total functions `Int → Int → _` indexed as `arr y x`,
  mirroring the source's `self.grid[y, x]` / `self.terrain[y, x]`; the
  separate checked accessor `Grid.get_cost_checked` captures the fact that a
  real numpy access faults or wraps outside `[0, dim)`.
* Python `%` on ints with a positive divisor is Euclidean remainder, i.e.
  `Int.emod`, written `%` below.
* the unbounded `while` loops of the planners take a fuel parameter; `none`
  covers both frontier exhaustion and fuel exhaustion, and every theorem about
  a returned node is conditional on `plan ... = some n`.
* `heapq` is modelled as a list with `heappush` appending on the right and
  `heappop` removing the leftmost entry of minimal priority (the contract of
  `heapq.heappop` is that it removes a smallest element; `Node.__lt__`
  compares by `cost`, and A*'s `(priority, node)` tuples compare
  lexicographically by priority then cost).
* the random draws of the simulated-annealing planner (`random.randint`,
  `random.shuffle`, `random.random`) are modelled by an explicit list of
  oracle choices, one per iteration, universally quantified in the theorems:
  `randint(1, n)` becomes `1 + idx % n` for an arbitrary `idx : Nat`,
  `shuffle(directions)` becomes an arbitrary list of `Direction` values, and
  the Metropolis draw `random.random() < exp(...)` becomes an arbitrary
  `Bool` (the float comparison is never needed by any claim).
-/

/-- The four movement directions of the source's `Direction` enum. -/
inductive Direction where
  | UP
  | DOWN
  | LEFT
  | RIGHT
deriving DecidableEq

/-- The `(dx, dy)` value of each direction, as in the source enum. -/
def Direction.value : Direction → Int × Int
  | .UP => (0, -1)
  | .DOWN => (0, 1)
  | .LEFT => (-1, 0)
  | .RIGHT => (1, 0)

/-- `Direction.get_all()`: all directions, in source order. -/
def Direction.get_all : List Direction :=
  [Direction.UP, Direction.DOWN, Direction.LEFT, Direction.RIGHT]

/-- A moving obstacle: current position, cyclic waypoint path, current index
into the path, speed (time steps between moves) and step counter. -/
structure MovingObstacle where
  x : Int
  y : Int
  path : List (Int × Int)
  current_step : Int
  speed : Int
  step_counter : Int
deriving DecidableEq

/-- `MovingObstacle.__init__(x, y, path, speed)`. -/
def MovingObstacle.init (x y : Int) (path : List (Int × Int)) (speed : Int) :
    MovingObstacle :=
  { x := x, y := y, path := path, current_step := 0, speed := speed,
    step_counter := 0 }

/-- `MovingObstacle.move`: advance the step counter; once it reaches `speed`,
reset it, advance the cyclic index and move to that waypoint. -/
def MovingObstacle.move (o : MovingObstacle) : MovingObstacle :=
  let sc := o.step_counter + 1
  if o.speed ≤ sc then
    let cs := (o.current_step + 1) % (o.path.length : Int)
    let pos := o.path.getD cs.toNat (0, 0)
    { o with step_counter := 0, current_step := cs, x := pos.1, y := pos.2 }
  else
    { o with step_counter := sc }

/-- `MovingObstacle.move` iterated `n` times. -/
def MovingObstacle.moveN : MovingObstacle → Nat → MovingObstacle
  | o, 0 => o
  | o, n + 1 => o.move.moveN n

/-- `MovingObstacle.get_position_at_time(time_step)`:
`self.path[(self.current_step + time_step) % len(self.path)]`. -/
def MovingObstacle.get_position_at_time (o : MovingObstacle) (time_step : Int) :
    Int × Int :=
  o.path.getD (((o.current_step + time_step) % (o.path.length : Int)).toNat) (0, 0)

/-- The grid world: dimensions, the cell-type array `grid` (value 1 =
`CellType.OBSTACLE`), the terrain-cost array, and the moving obstacles.
The two arrays are modelled as total functions indexed `y` then `x`. -/
structure Grid where
  width : Int
  height : Int
  gridVal : Int → Int → Int
  terrain : Int → Int → Nat
  moving_obstacles : List MovingObstacle

/-- `Grid.__init__(width, height)`. `np.zeros` / `np.full` raise `ValueError`
exactly when a requested dimension is negative (zero-sized arrays are fine),
so the constructor is embedded as `Except`: the only failure the source can
produce is numpy's negative-dimension error. The source itself performs no
dimension validation. -/
def Grid.init (width height : Int) : Except String Grid :=
  if width < 0 ∨ height < 0 then
    Except.error "ValueError: negative dimensions are not allowed"
  else
    Except.ok
      { width := width, height := height, gridVal := fun _ _ => 0,
        terrain := fun _ _ => 1, moving_obstacles := [] }

/-- `Grid.is_valid(x, y, time_step)`: in bounds, not a static obstacle, and no
moving obstacle predicted at `(x, y)` at `time_step`. -/
def Grid.is_valid (g : Grid) (x y : Int) (time_step : Int) : Bool :=
  if !(0 ≤ x && x < g.width && 0 ≤ y && y < g.height) then false
  else if g.gridVal y x == 1 then false
  else if g.moving_obstacles.any fun o =>
      let p := o.get_position_at_time time_step
      x == p.1 && y == p.2 then false
  else true

/-- `Grid.get_cost(x, y) = self.terrain[y, x]` (unguarded array access). -/
def Grid.get_cost (g : Grid) (x y : Int) : Nat :=
  g.terrain y x

/-- The terrain access of `Grid.get_cost` with its numpy in-bounds obligation
made explicit: `none` exactly when the raw access `terrain[y, x]` would fault
or wrap around (index outside `[0, dim)`). -/
def Grid.get_cost_checked (g : Grid) (x y : Int) : Option Nat :=
  if 0 ≤ x && x < g.width && 0 ≤ y && y < g.height then some (g.terrain y x)
  else none

/-- Search node: position, accumulated cost, time step and parent chain
(`root` has parent `None`). -/
inductive Node where
  | root (x y : Int) (cost : Nat) (time_step : Int)
  | child (x y : Int) (cost : Nat) (time_step : Int) (parent : Node)
deriving DecidableEq

/-- x-coordinate of a node. -/
def Node.x : Node → Int
  | .root x _ _ _ => x
  | .child x _ _ _ _ => x

/-- y-coordinate of a node. -/
def Node.y : Node → Int
  | .root _ y _ _ => y
  | .child _ y _ _ _ => y

/-- Accumulated cost of a node. -/
def Node.cost : Node → Nat
  | .root _ _ c _ => c
  | .child _ _ c _ _ => c

/-- Time step of a node. -/
def Node.time_step : Node → Int
  | .root _ _ _ t => t
  | .child _ _ _ t _ => t

/-- `Node.get_path`: positions from the root to this node. -/
def Node.get_path : Node → List (Int × Int)
  | .root x y _ _ => [(x, y)]
  | .child x y _ _ p => p.get_path ++ [(x, y)]

/-- The `(x, y, time_step)` identity triple used for visited tracking. -/
def nodeKey (n : Node) : Int × Int × Int :=
  (n.x, n.y, n.time_step)

/-- `PathPlanner.manhattan_distance`. -/
def manhattan_distance (x1 y1 x2 y2 : Int) : Nat :=
  (x1 - x2).natAbs + (y1 - y2).natAbs

/-- Manhattan distance between two points given as pairs. -/
def manhattanP (p q : Int × Int) : Nat :=
  manhattan_distance p.1 p.2 q.1 q.2

section Claims2and8

/-- Failing input for the obstacle-prediction claim: waypoints
`[(0,0), (1,0)]`, speed 2. -/
def obstacleSpeed2 : MovingObstacle :=
  MovingObstacle.init 0 0 [(0, 0), (1, 0)] 2

/-- C2: the closed-form prediction disagrees with iterated stepping for the
speed-2 obstacle `obstacleSpeed2` at relative offset 1: `get_position_at_time`
advances the cyclic index every tick (it ignores `speed` entirely), so it
predicts `(1, 0)`, while one call of `move` leaves the obstacle at `(0, 0)`
because the step counter has only reached 1 < 2.  This evaluates the code at
the failing input of the claim. -/
theorem moving_obstacle_prediction_ignores_speed :
    obstacleSpeed2.get_position_at_time 1 = (1, 0) ∧
      ((obstacleSpeed2.moveN 1).x, (obstacleSpeed2.moveN 1).y) = (0, 0) ∧
      obstacleSpeed2.get_position_at_time 1 ≠
        ((obstacleSpeed2.moveN 1).x, (obstacleSpeed2.moveN 1).y) := by
  refine ⟨by decide, by decide, by decide⟩

/-- Counterexample to C8 as stated: an obstacle constructed at `(5, 5)` whose
waypoint list is `[(0, 0)]` has `get_position_at_time 0 = (0, 0) ≠ (5, 5)`:
the prediction at offset 0 returns `path[current_step]`, which need not be
the stored current position, since the constructor never checks that the
initial coordinates lie on the path. -/
theorem prediction_at_zero_counterexample :
    (MovingObstacle.init 5 5 [(0, 0)] 1).get_position_at_time 0 ≠
      ((MovingObstacle.init 5 5 [(0, 0)] 1).x,
        (MovingObstacle.init 5 5 [(0, 0)] 1).y) := by
  decide

/-- C8 (amended): for every moving obstacle whose stored position agrees with
`path[current_step]` (which holds whenever the constructor was called with
coordinates equal to `path[0]`, and is re-established by every `move`), the
prediction at relative offset 0 equals the obstacle's current position; and
for every obstacle whatsoever the prediction is periodic in the offset with
period `len(path) * speed`. -/
theorem prediction_at_zero_and_periodicity (o : MovingObstacle)
    (hlen : 0 ≤ o.current_step) (hlt : o.current_step < (o.path.length : Int))
    (hpos : o.path.getD o.current_step.toNat (0, 0) = (o.x, o.y)) :
    o.get_position_at_time 0 = (o.x, o.y) ∧
      ∀ o₂ : MovingObstacle, ∀ t : Int,
        o₂.get_position_at_time (t + (o₂.path.length : Int) * o₂.speed) =
          o₂.get_position_at_time t := by
  constructor
  · unfold MovingObstacle.get_position_at_time
    rw [Int.add_zero, Int.emod_eq_of_lt hlen hlt, hpos]
  · intro o₂ t
    unfold MovingObstacle.get_position_at_time
    have h : o₂.current_step + (t + (o₂.path.length : Int) * o₂.speed) =
        o₂.current_step + t + (o₂.path.length : Int) * o₂.speed := by ring
    rw [h, Int.add_mul_emod_self_left]

/-- Witness for the amended C8 at a concrete consistent obstacle. -/
theorem prediction_at_zero_and_periodicity_witness :
    (MovingObstacle.init 0 0 [(0, 0), (0, 1)] 1).get_position_at_time 0 =
        ((MovingObstacle.init 0 0 [(0, 0), (0, 1)] 1).x,
          (MovingObstacle.init 0 0 [(0, 0), (0, 1)] 1).y) ∧
      ∀ o₂ : MovingObstacle, ∀ t : Int,
        o₂.get_position_at_time (t + (o₂.path.length : Int) * o₂.speed) =
          o₂.get_position_at_time t :=
  prediction_at_zero_and_periodicity (MovingObstacle.init 0 0 [(0, 0), (0, 1)] 1)
    (by decide) (by decide) (by decide)

end Claims2and8

/-- One candidate direction of the successor loop shared by the planners:
position `cur + d`, time `cur.time_step + 1`. -/
def succPos (cur : Node) (d : Direction) : Int × Int :=
  (cur.x + d.value.1, cur.y + d.value.2)

/-- The `(x, y, time)` key a successor of `cur` in direction `d` would get. -/
def succKey (cur : Node) (d : Direction) : Int × Int × Int :=
  ((succPos cur d).1, (succPos cur d).2, cur.time_step + 1)

/-- The successor loop of `BFSPlanner.plan`: for each direction in order, if
the candidate cell is valid at the next time step and its key is unvisited,
mark it visited and append a child node with cost `cur.cost + 1` to the FIFO
queue. -/
def bfs_step (g : Grid) (cur : Node) :
    List Direction → List Node × List (Int × Int × Int) →
      List Node × List (Int × Int × Int)
  | [], acc => acc
  | d :: rest, acc =>
    let new_x := cur.x + d.value.1
    let new_y := cur.y + d.value.2
    let new_time_step := cur.time_step + 1
    if g.is_valid new_x new_y new_time_step &&
        !(acc.2.contains (new_x, new_y, new_time_step)) then
      bfs_step g cur rest
        (acc.1 ++ [Node.child new_x new_y (cur.cost + 1) new_time_step cur],
          (new_x, new_y, new_time_step) :: acc.2)
    else
      bfs_step g cur rest acc

/-- The `while queue` loop of `BFSPlanner.plan` (fuel-indexed). -/
def bfs_loop (g : Grid) (gx gy : Int) :
    Nat → List Node → List (Int × Int × Int) → Option Node
  | 0, _, _ => none
  | _ + 1, [], _ => none
  | fuel + 1, cur :: rest, visited =>
    if cur.x == gx && cur.y == gy then some cur
    else
      let qv := bfs_step g cur Direction.get_all (rest, visited)
      bfs_loop g gx gy fuel qv.1 qv.2

/-- `BFSPlanner.plan(start_x, start_y, goal_x, goal_y, start_time)`. -/
def BFSPlanner.plan (g : Grid) (fuel : Nat) (sx sy gx gy st : Int) :
    Option Node :=
  bfs_loop g gx gy fuel [Node.root sx sy 0 st] [(sx, sy, st)]

/-- `heapq.heappop` on a queue of `Node`s ordered by `Node.__lt__` (cost
comparison): remove the leftmost node of minimal cost. -/
def popMinNode : List Node → Option (Node × List Node)
  | [] => none
  | n :: rest =>
    match popMinNode rest with
    | none => some (n, [])
    | some (m, rest2) =>
      if n.cost ≤ m.cost then some (n, rest) else some (m, n :: rest2)

/-- The successor loop of `UCSPlanner.plan`: like BFS but the child's cost is
`cur.cost + grid.get_cost(new_x, new_y)` and the queue is a min-heap. -/
def ucs_step (g : Grid) (cur : Node) :
    List Direction → List Node × List (Int × Int × Int) →
      List Node × List (Int × Int × Int)
  | [], acc => acc
  | d :: rest, acc =>
    let new_x := cur.x + d.value.1
    let new_y := cur.y + d.value.2
    let new_time_step := cur.time_step + 1
    if g.is_valid new_x new_y new_time_step then
      let cell_cost := g.get_cost new_x new_y
      let new_cost := cur.cost + cell_cost
      if !(acc.2.contains (new_x, new_y, new_time_step)) then
        ucs_step g cur rest
          (acc.1 ++ [Node.child new_x new_y new_cost new_time_step cur],
            (new_x, new_y, new_time_step) :: acc.2)
      else
        ucs_step g cur rest acc
    else
      ucs_step g cur rest acc

/-- The `while priority_queue` loop of `UCSPlanner.plan` (fuel-indexed). -/
def ucs_loop (g : Grid) (gx gy : Int) :
    Nat → List Node → List (Int × Int × Int) → Option Node
  | 0, _, _ => none
  | fuel + 1, queue, visited =>
    match popMinNode queue with
    | none => none
    | some (cur, rest) =>
      if cur.x == gx && cur.y == gy then some cur
      else
        let qv := ucs_step g cur Direction.get_all (rest, visited)
        ucs_loop g gx gy fuel qv.1 qv.2

/-- `UCSPlanner.plan(start_x, start_y, goal_x, goal_y, start_time)`. -/
def UCSPlanner.plan (g : Grid) (fuel : Nat) (sx sy gx gy st : Int) :
    Option Node :=
  ucs_loop g gx gy fuel [Node.root sx sy 0 st] [(sx, sy, st)]

/-- Lexicographic comparison of A*'s `(priority, node)` heap entries, as
Python tuple comparison performs it: by priority, then by `Node.__lt__`
(cost). -/
def entryLE (a b : Nat × Node) : Bool :=
  a.1 < b.1 || (a.1 == b.1 && a.2.cost ≤ b.2.cost)

/-- `heapq.heappop` on A*'s `(priority, node)` entries: remove the leftmost
entry minimal in the lexicographic order. -/
def popMinEntry : List (Nat × Node) → Option ((Nat × Node) × List (Nat × Node))
  | [] => none
  | n :: rest =>
    match popMinEntry rest with
    | none => some (n, [])
    | some (m, rest2) =>
      if entryLE n m then some (n, rest) else some (m, n :: rest2)

/-- The successor loop of `AStarPlanner.plan` with the default Manhattan
heuristic: priority is `new_cost + manhattan_distance(candidate, goal)`. -/
def astar_step (g : Grid) (gx gy : Int) (cur : Node) :
    List Direction → List (Nat × Node) × List (Int × Int × Int) →
      List (Nat × Node) × List (Int × Int × Int)
  | [], acc => acc
  | d :: rest, acc =>
    let new_x := cur.x + d.value.1
    let new_y := cur.y + d.value.2
    let new_time_step := cur.time_step + 1
    if g.is_valid new_x new_y new_time_step then
      let cell_cost := g.get_cost new_x new_y
      let new_cost := cur.cost + cell_cost
      let priority := new_cost + manhattan_distance new_x new_y gx gy
      if !(acc.2.contains (new_x, new_y, new_time_step)) then
        astar_step g gx gy cur rest
          (acc.1 ++ [(priority, Node.child new_x new_y new_cost new_time_step cur)],
            (new_x, new_y, new_time_step) :: acc.2)
      else
        astar_step g gx gy cur rest acc
    else
      astar_step g gx gy cur rest acc

/-- The `while priority_queue` loop of `AStarPlanner.plan` (fuel-indexed). -/
def astar_loop (g : Grid) (gx gy : Int) :
    Nat → List (Nat × Node) → List (Int × Int × Int) → Option Node
  | 0, _, _ => none
  | fuel + 1, queue, visited =>
    match popMinEntry queue with
    | none => none
    | some (cur, rest) =>
      if cur.2.x == gx && cur.2.y == gy then some cur.2
      else
        let qv := astar_step g gx gy cur.2 Direction.get_all (rest, visited)
        astar_loop g gx gy fuel qv.1 qv.2

/-- `AStarPlanner.plan` with the default heuristic (`manhattan_distance`). -/
def AStarPlanner.plan (g : Grid) (fuel : Nat) (sx sy gx gy st : Int) :
    Option Node :=
  astar_loop g gx gy fuel
    [(manhattan_distance sx sy gx gy, Node.root sx sy 0 st)] [(sx, sy, st)]

/-- The `SimulatedAnnealingPlanner` object: grid plus the configuration stored
by `__init__` (which performs no validation whatsoever). Temperatures are
modelled as rationals; no claim needs float semantics, because the only use of
the temperature — the Metropolis draw — is modelled by an oracle `Bool`. -/
structure SimulatedAnnealingPlanner where
  grid : Grid
  max_iterations : Nat
  initial_temp : ℚ
  cooling_rate : ℚ

/-- `SimulatedAnnealingPlanner.__init__`: stores the four fields, checks
nothing. -/
def SimulatedAnnealingPlanner.init (g : Grid) (max_iterations : Nat)
    (initial_temp cooling_rate : ℚ) : SimulatedAnnealingPlanner :=
  { grid := g, max_iterations := max_iterations, initial_temp := initial_temp,
    cooling_rate := cooling_rate }

/-- The random draws one annealing iteration consumes: the `randint` draw for
the interior index (taken modulo the interior length), the `shuffle`d
direction list, and the Metropolis draw `random.random() < exp(...)`. -/
structure SAChoice where
  idx : Nat
  dirs : List Direction
  accept : Bool

/-- The mutable state of the annealing loop. -/
structure SAState where
  current_path : List (Int × Int)
  current_cost : Nat
  temperature : ℚ
deriving DecidableEq

/-- The inner `for direction in directions` loop of one annealing iteration:
return the first direction's candidate `prev + d` that differs from both
`prev` and `next`, is enterable at time `modify_index + start_time`, and is
exactly one orthogonal step from `next`. -/
def sa_find_alt (g : Grid) (start_time : Int) (modify_index : Nat)
    (prev nxt : Int × Int) : List Direction → Option (Int × Int)
  | [] => none
  | d :: rest =>
    let alt := (prev.1 + d.value.1, prev.2 + d.value.2)
    if alt ≠ prev ∧ alt ≠ nxt then
      if g.is_valid alt.1 alt.2 ((modify_index : Int) + start_time) then
        if manhattanP alt nxt == 1 then some alt
        else sa_find_alt g start_time modify_index prev nxt rest
      else sa_find_alt g start_time modify_index prev nxt rest
    else sa_find_alt g start_time modify_index prev nxt rest

/-- The re-validation walk over a perturbed path (`for j in range(1, len)`):
starting from waypoint index `j` over the remaining waypoints, fail with
`none` at the first waypoint that is not enterable at its time-indexed step,
otherwise accumulate the entered cells' terrain costs. -/
def sa_walk (g : Grid) (start_time : Int) :
    Nat → List (Int × Int) → Nat → Option Nat
  | _, [], acc => some acc
  | j, p :: rest, acc =>
    if g.is_valid p.1 p.2 ((j : Int) + start_time) then
      sa_walk g start_time (j + 1) rest (acc + g.get_cost p.1 p.2)
    else none

/-- One iteration of the annealing loop (the body of
`for i in range(self.max_iterations)` after the length guard): draw an
interior index, look for an alternative waypoint, and if one is found re-walk
the perturbed path, apply the acceptance rule and multiply the temperature by
the cooling rate. If no alternative is found the iteration changes nothing —
in particular it does not touch the temperature, since the source's
`temperature *= self.cooling_rate` sits inside `if found_alternative:`. -/
def sa_iter (g : Grid) (cooling_rate : ℚ) (start_time : Int) (c : SAChoice)
    (s : SAState) : SAState :=
  let modify_index := 1 + c.idx % (s.current_path.length - 2)
  let prev := s.current_path.getD (modify_index - 1) (0, 0)
  let nxt := s.current_path.getD (modify_index + 1) (0, 0)
  match sa_find_alt g start_time modify_index prev nxt c.dirs with
  | none => s
  | some alt =>
    let new_path := s.current_path.set modify_index alt
    match sa_walk g start_time 1 new_path.tail 0 with
    | none => { s with temperature := s.temperature * cooling_rate }
    | some new_cost =>
      if new_cost < s.current_cost then
        { current_path := new_path, current_cost := new_cost,
          temperature := s.temperature * cooling_rate }
      else if c.accept then
        { current_path := new_path, current_cost := new_cost,
          temperature := s.temperature * cooling_rate }
      else
        { s with temperature := s.temperature * cooling_rate }

/-- The annealing loop: one oracle choice per iteration; the
`if len(current_path) <= 2: break` guard stops the loop. -/
def sa_loop (g : Grid) (cooling_rate : ℚ) (start_time : Int) :
    List SAChoice → SAState → SAState
  | [], s => s
  | c :: cs, s =>
    if s.current_path.length ≤ 2 then s
    else sa_loop g cooling_rate start_time cs (sa_iter g cooling_rate start_time c s)

/-- The final `for i, (x, y) in enumerate(current_path)` reconstruction that
turns the retained path back into a `Node` chain, re-accumulating terrain
costs with the root contributing zero. Returns the last node built. -/
def sa_chain_fold (g : Grid) (start_time : Int) :
    List (Int × Int) → Nat → Nat → Option Node → Option Node
  | [], _, _, parent => parent
  | p :: rest, i, total, parent =>
    let t := (i : Int) + start_time
    let total2 := if 0 < i then total + g.get_cost p.1 p.2 else total
    let node :=
      match parent with
      | none => Node.root p.1 p.2 total2 t
      | some par => Node.child p.1 p.2 total2 t par
    sa_chain_fold g start_time rest (i + 1) total2 (some node)

/-- `SimulatedAnnealingPlanner.plan`: seed from A* (same grid, default
heuristic), refine with the annealing loop (at most `max_iterations`
iterations, each consuming one oracle choice), then rebuild the node chain.
`fuel` bounds only the seeding A* search. -/
def SimulatedAnnealingPlanner.plan (sa : SimulatedAnnealingPlanner) (fuel : Nat)
    (choices : List SAChoice) (sx sy gx gy st : Int) : Option Node :=
  match AStarPlanner.plan sa.grid fuel sx sy gx gy st with
  | none => none
  | some node =>
    let s0 : SAState :=
      { current_path := node.get_path, current_cost := node.cost,
        temperature := sa.initial_temp }
    let s1 := sa_loop sa.grid sa.cooling_rate st (choices.take sa.max_iterations) s0
    if s1.current_path.isEmpty then none
    else sa_chain_fold sa.grid st s1.current_path 0 0 none

/-- Sum of the terrain costs of the cells entered along a path: every waypoint
after the first costs `get_cost`; the start cell is free. -/
def pathCost (g : Grid) : List (Int × Int) → Nat
  | [] => 0
  | _ :: rest => (rest.map fun p => g.get_cost p.1 p.2).sum

/-- `q` is reachable from `p` by one of the four axis-aligned moves. -/
def stepOK (p q : Int × Int) : Prop :=
  ∃ d ∈ Direction.get_all, q = (p.1 + (Direction.value d).1, p.2 + (Direction.value d).2)

instance (p q : Int × Int) : Decidable (stepOK p q) := by
  unfold stepOK; infer_instance

/-- A feasible time-indexed path starting at `s` at time `st`: nonempty,
begins at `s`, every step is one of the four moves, and every waypoint after
the first is enterable at its time-indexed step (`is_valid` is never consulted
for the start cell, matching all four planners). -/
def FeasiblePath (g : Grid) (st : Int) (s : Int × Int) (π : List (Int × Int)) : Prop :=
  π.head? = some s ∧
    (∀ i < π.length - 1, stepOK (π.getD i (0, 0)) (π.getD (i + 1) (0, 0))) ∧
    (∀ i < π.length, i ≠ 0 →
      g.is_valid (π.getD i (0, 0)).1 (π.getD i (0, 0)).2 (st + i) = true)

instance (g : Grid) (st : Int) (s : Int × Int) (π : List (Int × Int)) :
    Decidable (FeasiblePath g st s π) := by
  unfold FeasiblePath; infer_instance

/-- Consecutive waypoints of `π` are exactly one orthogonal step apart. -/
def PathSteps (π : List (Int × Int)) : Prop :=
  ∀ i < π.length - 1, manhattanP (π.getD i (0, 0)) (π.getD (i + 1) (0, 0)) = 1

instance (π : List (Int × Int)) : Decidable (PathSteps π) := by
  unfold PathSteps; infer_instance

/-- Every waypoint of `π` after the first is enterable at its time-indexed
step. -/
def PathValid (g : Grid) (st : Int) (π : List (Int × Int)) : Prop :=
  ∀ i < π.length, i ≠ 0 →
    g.is_valid (π.getD i (0, 0)).1 (π.getD i (0, 0)).2 (st + i) = true

instance (g : Grid) (st : Int) (π : List (Int × Int)) : Decidable (PathValid g st π) := by
  unfold PathValid; infer_instance

/-- A trivial free 2-by-1 grid of road cells. -/
def tinyGrid : Grid :=
  { width := 2, height := 1, gridVal := fun _ _ => 0, terrain := fun _ _ => 1,
    moving_obstacles := [] }

/-- A 3-by-1 corridor whose middle cell is grass (terrain cost 3). -/
def grassGrid : Grid :=
  { width := 3, height := 1, gridVal := fun _ _ => 0,
    terrain := fun y x => if (x, y) = ((1 : Int), (0 : Int)) then 3 else 1,
    moving_obstacles := [] }

/-- The 7-by-3 grid on which the default-heuristic A* returns a suboptimal
cost. Walls at (1,0), (3,1), (4,1), (5,1), (0,2), (1,2); terrain cost 10 at
(2,0) and 5 at (3,2) and (2,2); road elsewhere. Start (6,1), goal (0,0).
The cheapest feasible route (cost 17) runs along the top row through (2,2);
the row of cheap cells `(6,0) … (3,0)` ending in the water cell `(2,0)` forms
a heuristically attractive branch that reaches the key `((2,1), 6)` first and
enqueues it with cost 15, one more than the cheapest arrival (14); because
visited marking happens at enqueue time the cheaper arrival is discarded, and
A* finalises the goal at cost 18 where UCS finds 17. -/
def cexGrid : Grid :=
  { width := 7, height := 3,
    gridVal := fun y x =>
      if (x, y) ∈ ([(1, 0), (3, 1), (4, 1), (5, 1), (0, 2), (1, 2)] : List (Int × Int))
      then 1 else 0,
    terrain := fun y x =>
      if (x, y) = ((2 : Int), (0 : Int)) then 10
      else if (x, y) = ((3 : Int), (2 : Int)) then 5
      else if (x, y) = ((2 : Int), (2 : Int)) then 5
      else 1,
    moving_obstacles := [] }

section Claim7

/-- Counterexample to C7 as stated: constructing a `Grid` with the non-positive
dimensions 0 × 0 succeeds without any error (numpy happily allocates
zero-sized arrays and the source checks nothing), and constructing a
`SimulatedAnnealingPlanner` with cooling factor 3/2 ∉ (0,1) likewise succeeds,
storing the invalid factor verbatim — no configuration error is surfaced at
either construction. -/
theorem construction_no_validation_counterexample :
    (Grid.init 0 0).toOption.isSome = true ∧
      (SimulatedAnnealingPlanner.init tinyGrid 1000 100 (3 / 2)).cooling_rate = 3 / 2 := by
  constructor
  · decide
  · norm_num [SimulatedAnnealingPlanner.init]

/-- C7 (amended): neither constructor validates its configuration. `Grid`
construction succeeds exactly when both dimensions are non-negative — the only
failure is numpy's `ValueError` on a negative dimension, and zero-sized grids
are accepted silently — and `SimulatedAnnealingPlanner` construction always
succeeds, storing any cooling factor (including values outside (0,1))
unchecked. -/
theorem construction_performs_no_validation (w h : Int) (g : Grid) (mi : Nat)
    (it cr : ℚ) :
    ((Grid.init w h).toOption.isSome = true ↔ 0 ≤ w ∧ 0 ≤ h) ∧
      SimulatedAnnealingPlanner.init g mi it cr =
        { grid := g, max_iterations := mi, initial_temp := it, cooling_rate := cr } := by
  constructor
  · unfold Grid.init
    split
    · simp only [Except.toOption, Option.isSome]
      constructor
      · intro hc
        exact absurd hc Bool.false_ne_true
      · intro hc
        omega
    · simp only [Except.toOption, Option.isSome]
      constructor
      · intro _
        omega
      · intro _
        trivial
  · rfl

end Claim7

section ConcreteCounterexamples

/-- Counterexample to C1 as stated: visited marking does NOT occur at pop
time. Expanding the start node of `tinyGrid` once puts the successor key
`(1, 0, 1)` into the visited set at the very moment its node is enqueued —
the node is still sitting in the frontier, it has never been popped, yet its
key is already marked visited (exactly as in BFS, and unlike the claimed
pop-time marking under which only finalized states are marked). -/
theorem ucs_marks_visited_at_enqueue_counterexample :
    ((1, 0, 1) : Int × Int × Int) ∈
        (ucs_step tinyGrid (Node.root 0 0 0 0) Direction.get_all
          ([], [(0, 0, 0)])).2 ∧
      ∃ n ∈ (ucs_step tinyGrid (Node.root 0 0 0 0) Direction.get_all
          ([], [(0, 0, 0)])).1, nodeKey n = (1, 0, 1) := by
  decide

set_option maxRecDepth 10000 in
/-- C3 failing input: on `cexGrid` from (6,1) to (0,0), UCS reports the
optimal cost 17 but A* with the default Manhattan heuristic reports 18.
Because visited marking happens at enqueue time, the heuristically attractive
dead-end branch enqueues the bottleneck key `((2,1), 6)` with cost 15 before
the cheaper arrival (cost 14) is generated, and the cheaper path can never be
finalized. -/
theorem astar_exceeds_ucs_on_cexGrid :
    (UCSPlanner.plan cexGrid 200 6 1 0 0 0).map Node.cost = some 17 ∧
      (AStarPlanner.plan cexGrid 200 6 1 0 0 0).map Node.cost = some 18 := by
  constructor
  · decide
  · decide

/-- Counterexample to C4 as stated: on `grassGrid` (middle cell grass, cost 3)
BFS returns the straight two-move path with accumulated cost 2 — the number
of moves — while the sum of the entered cells' terrain costs along its parent
chain is 3 + 1 = 4. BFS charges `parent.cost + 1` per move and ignores
terrain. -/
theorem bfs_cost_is_hops_counterexample :
    (BFSPlanner.plan grassGrid 20 0 0 2 0 0).map Node.cost = some 2 ∧
      (BFSPlanner.plan grassGrid 20 0 0 2 0 0).map
          (fun n => pathCost grassGrid n.get_path) = some 4 ∧
      (2 : Nat) ≠ 4 := by
  refine ⟨by decide, by decide, by decide⟩

end ConcreteCounterexamples

/-- Snoc-structured feasibility: `Feas g st s π p t` says `π` is a feasible
time-indexed path that starts at `s` at time `st` and currently ends at
waypoint `p` at time `t`, growing exactly the way the planners extend nodes:
one valid axis-aligned step at a time. -/
inductive Feas (g : Grid) (st : Int) (s : Int × Int) :
    List (Int × Int) → (Int × Int) → Int → Prop
  | base : Feas g st s [s] s st
  | snoc {π : List (Int × Int)} {p q : Int × Int} {t : Int} :
      Feas g st s π p t → stepOK p q → g.is_valid q.1 q.2 (t + 1) = true →
      Feas g st s (π ++ [q]) q (t + 1)

theorem Feas.ne_nil {g st s π p t} (h : Feas g st s π p t) : π ≠ [] := by
  cases h with
  | base => simp
  | snoc h1 h2 h3 => simp

theorem Feas.head_eq {g st s π p t} (h : Feas g st s π p t) : π.head? = some s := by
  induction h with
  | base => rfl
  | snoc h1 h2 h3 ih =>
    rename_i π p q t
    rw [List.head?_append_of_ne_nil _ h1.ne_nil, ih]

theorem Feas.last_eq {g st s π p t} (h : Feas g st s π p t) :
    π.getLast? = some p := by
  cases h with
  | base => rfl
  | snoc h1 h2 h3 => exact List.getLast?_concat _

theorem Feas.time_eq {g st s π p t} (h : Feas g st s π p t) :
    t = st + (π.length : Int) - 1 := by
  induction h with
  | base => simp
  | snoc h1 h2 h3 ih =>
    simp only [List.length_append, List.length_singleton]
    push_cast
    omega

theorem pathCost_snoc (g : Grid) (π : List (Int × Int)) (q : Int × Int)
    (h : π ≠ []) :
    pathCost g (π ++ [q]) = pathCost g π + g.get_cost q.1 q.2 := by
  match π, h with
  | x :: rest, _ =>
    simp [pathCost]

/-- Conversion: the index-based `FeasiblePath` description of a snoc-feasible
path. -/
theorem Feas.toFeasiblePath {g st s π p t} (h : Feas g st s π p t) :
    FeasiblePath g st s π := by
  induction h with
  | base =>
    refine ⟨rfl, ?_, ?_⟩
    · intro i hi
      simp at hi
    · intro i hi hne
      simp only [List.length_singleton] at hi
      exact absurd (by omega) hne
  | snoc h1 h2 h3 ih =>
    rename_i π p q t
    obtain ⟨ihh, ihs, ihv⟩ := ih
    have hlen : 1 ≤ π.length := List.length_pos.mpr h1.ne_nil
    refine ⟨?_, ?_, ?_⟩
    · rw [List.head?_append_of_ne_nil _ h1.ne_nil, ihh]
    · intro i hi
      simp only [List.length_append, List.length_singleton] at hi
      rcases Nat.lt_or_ge i (π.length - 1) with hcase | hcase
      · rw [List.getD_append _ _ _ _ (by omega), List.getD_append _ _ _ _ (by omega)]
        exact ihs i hcase
      · have hieq : i = π.length - 1 := by omega
        subst hieq
        rw [List.getD_append _ _ _ _ (by omega),
          List.getD_append_right _ _ _ _ (by omega)]
        have hidx : π.length - 1 + 1 - π.length = 0 := by omega
        rw [hidx]
        have hget : π.getD (π.length - 1) (0, 0) = p := by
          have := h1.last_eq
          rw [List.getLast?_eq_getElem?] at this
          rw [List.getD_eq_getElem _ _ (by omega)]
          rw [List.getElem?_eq_getElem (by omega)] at this
          exact Option.some_injective _ this
        rw [hget]
        simpa using h2
    · intro i hi hne
      simp only [List.length_append, List.length_singleton] at hi
      rcases Nat.lt_or_ge i π.length with hcase | hcase
      · rw [List.getD_append _ _ _ _ hcase]
        exact ihv i hcase hne
      · have hieq : i = π.length := by omega
        subst hieq
        rw [List.getD_append_right _ _ _ _ (by omega)]
        have hidx : π.length - π.length = 0 := by omega
        rw [hidx]
        have htime : t + 1 = st + (π.length : Int) := by
          have := h1.time_eq
          omega
        simpa [htime] using h3

/-- Conversion: an index-based feasible path ending at `p` is snoc-feasible. -/
theorem Feas.ofFeasiblePath {g : Grid} {st : Int} {s : Int × Int} :
    ∀ {π : List (Int × Int)} {p : Int × Int}, FeasiblePath g st s π →
      π.getLast? = some p → Feas g st s π p (st + (π.length : Int) - 1) := by
  intro π
  induction π using List.reverseRecOn with
  | nil =>
    intro p h hl
    exact absurd h.1 (by simp)
  | append_singleton σ q ih =>
    intro p h hl
    rw [List.getLast?_concat] at hl
    have hqp : q = p := Option.some_injective _ hl
    obtain ⟨hh, hs, hv⟩ := h
    rcases List.eq_nil_or_concat σ with hσ | _
    · subst hσ
      simp only [List.nil_append, List.head?_cons] at hh
      have hqs : q = s := Option.some_injective _ hh
      rw [← hqp, hqs]
      simpa using Feas.base
    · rw [← hqp]
      have hσne : σ ≠ [] := by
        rename_i hex
        obtain ⟨l, a, rfl⟩ := hex
        simp
      have hlen : 1 ≤ σ.length := List.length_pos.mpr hσne
      have hfeasσ : FeasiblePath g st s σ := by
        refine ⟨?_, ?_, ?_⟩
        · rwa [List.head?_append_of_ne_nil _ hσne] at hh
        · intro i hi
          have h1 := hs i (by simp; omega)
          rwa [List.getD_append _ _ _ _ (by omega),
            List.getD_append _ _ _ _ (by omega)] at h1
        · intro i hi hne
          have h1 := hv i (by simp; omega) hne
          rwa [List.getD_append _ _ _ _ (by omega)] at h1
      set r : Int × Int := σ.getD (σ.length - 1) (0, 0) with hr
      have hlast : σ.getLast? = some r := by
        rw [List.getLast?_eq_getElem?, hr, List.getD_eq_getElem _ _ (by omega),
          List.getElem?_eq_getElem (by omega)]
      have hfeas := ih hfeasσ hlast
      have hstep : stepOK r q := by
        have h1 := hs (σ.length - 1) (by simp; omega)
        rw [List.getD_append _ _ _ _ (by omega),
          List.getD_append_right _ _ _ _ (by omega),
          show σ.length - 1 + 1 - σ.length = 0 by omega] at h1
        simp only [List.getD_cons_zero] at h1
        exact h1
      have hvalid : g.is_valid q.1 q.2 (st + (σ.length : Int) - 1 + 1) = true := by
        have h1 := hv σ.length (by simp) (by omega)
        rw [List.getD_append_right _ _ _ _ (by omega),
          show σ.length - σ.length = 0 by omega] at h1
        simp only [List.getD_cons_zero] at h1
        have heq : st + (σ.length : Int) - 1 + 1 = st + (σ.length : Int) := by omega
        rw [heq]
        exact h1
      have hres := Feas.snoc hfeas hstep hvalid
      have hlen2 : st + ((σ ++ [q]).length : Int) - 1 = st + (σ.length : Int) - 1 + 1 := by
        simp only [List.length_append, List.length_singleton]
        push_cast
        omega
      rwa [hlen2]

/-- The cost of any snoc-feasible path is at least that of each of its
snoc-prefixes (all cell costs are non-negative); in fact `pathCost` of a
prefix never exceeds the whole. Stated the way the chain argument uses it. -/
theorem pathCost_prefix_le (g : Grid) (σ : List (Int × Int)) (q : Int × Int)
    (h : σ ≠ []) : pathCost g σ ≤ pathCost g (σ ++ [q]) := by
  rw [pathCost_snoc g σ q h]
  exact Nat.le_add_right _ _

/-- Well-formedness of a UCS/A* node: its reconstructed path is snoc-feasible
from the start and its cost is the sum of the entered cells' terrain costs. -/
def NodeOK (g : Grid) (st : Int) (s : Int × Int) (n : Node) : Prop :=
  Feas g st s n.get_path (n.x, n.y) n.time_step ∧ n.cost = pathCost g n.get_path

/-- Well-formedness of a BFS node: its reconstructed path is snoc-feasible
from the start and its cost counts the moves taken (path length minus one). -/
def NodeHops (g : Grid) (st : Int) (s : Int × Int) (n : Node) : Prop :=
  Feas g st s n.get_path (n.x, n.y) n.time_step ∧ n.cost = n.get_path.length - 1

theorem NodeOK_root (g : Grid) (st : Int) (sx sy : Int) :
    NodeOK g st (sx, sy) (Node.root sx sy 0 st) :=
  ⟨Feas.base, rfl⟩

theorem NodeHops_root (g : Grid) (st : Int) (sx sy : Int) :
    NodeHops g st (sx, sy) (Node.root sx sy 0 st) :=
  ⟨Feas.base, rfl⟩

theorem NodeOK_child (g : Grid) (st : Int) (s : Int × Int) (n : Node)
    (h : NodeOK g st s n) (nx ny : Int) (hstep : stepOK (n.x, n.y) (nx, ny))
    (hvalid : g.is_valid nx ny (n.time_step + 1) = true) :
    NodeOK g st s
      (Node.child nx ny (n.cost + g.get_cost nx ny) (n.time_step + 1) n) := by
  obtain ⟨hf, hc⟩ := h
  constructor
  · exact Feas.snoc hf hstep hvalid
  · show n.cost + g.get_cost nx ny = pathCost g (n.get_path ++ [(nx, ny)])
    rw [pathCost_snoc g _ _ hf.ne_nil, hc]

theorem NodeHops_child (g : Grid) (st : Int) (s : Int × Int) (n : Node)
    (h : NodeHops g st s n) (nx ny : Int) (hstep : stepOK (n.x, n.y) (nx, ny))
    (hvalid : g.is_valid nx ny (n.time_step + 1) = true) :
    NodeHops g st s (Node.child nx ny (n.cost + 1) (n.time_step + 1) n) := by
  obtain ⟨hf, hc⟩ := h
  have hlen : 1 ≤ n.get_path.length := List.length_pos.mpr hf.ne_nil
  constructor
  · exact Feas.snoc hf hstep hvalid
  · show n.cost + 1 = (n.get_path ++ [(nx, ny)]).length - 1
    simp only [List.length_append, List.length_singleton]
    omega

theorem popMinNode_eq_none {q : List Node} : popMinNode q = none ↔ q = [] := by
  cases q with
  | nil => simp [popMinNode]
  | cons n rest =>
    simp only [popMinNode]
    constructor
    · intro h
      exfalso
      revert h
      cases popMinNode rest with
      | none => simp
      | some pr =>
        cases pr with
        | mk m rest2 => simp only; split <;> simp
    · intro h
      exact absurd h (by simp)

theorem popMinNode_perm : ∀ {q : List Node} {m : Node} {rest : List Node},
    popMinNode q = some (m, rest) → q.Perm (m :: rest) := by
  intro q
  induction q with
  | nil => intro m rest h; exact absurd h (by simp [popMinNode])
  | cons n tl ih =>
    intro m rest h
    simp only [popMinNode] at h
    cases htl : popMinNode tl with
    | none =>
      rw [htl] at h
      simp only [Option.some.injEq, Prod.mk.injEq] at h
      obtain ⟨rfl, rfl⟩ := h
      have : tl = [] := popMinNode_eq_none.mp htl
      subst this
      exact List.Perm.refl _
    | some pr =>
      obtain ⟨m2, rest2⟩ := pr
      rw [htl] at h
      simp only at h
      split at h
      · simp only [Option.some.injEq, Prod.mk.injEq] at h
        obtain ⟨rfl, rfl⟩ := h
        exact List.Perm.refl _
      · simp only [Option.some.injEq, Prod.mk.injEq] at h
        obtain ⟨rfl, rfl⟩ := h
        have hperm := ih htl
        exact (hperm.cons n).trans (List.Perm.swap m2 n rest2)

theorem popMinNode_mem {q : List Node} {m : Node} {rest : List Node}
    (h : popMinNode q = some (m, rest)) : m ∈ q :=
  (popMinNode_perm h).mem_iff.mpr (List.mem_cons_self _ _)

theorem popMinNode_min : ∀ {q : List Node} {m : Node} {rest : List Node},
    popMinNode q = some (m, rest) → ∀ x ∈ q, m.cost ≤ x.cost := by
  intro q
  induction q with
  | nil => intro m rest h; exact absurd h (by simp [popMinNode])
  | cons n tl ih =>
    intro m rest h x hx
    simp only [popMinNode] at h
    cases htl : popMinNode tl with
    | none =>
      rw [htl] at h
      simp only [Option.some.injEq, Prod.mk.injEq] at h
      obtain ⟨rfl, rfl⟩ := h
      have : tl = [] := popMinNode_eq_none.mp htl
      subst this
      rcases List.mem_singleton.mp hx with rfl
      exact Nat.le_refl _
    | some pr =>
      obtain ⟨m2, rest2⟩ := pr
      rw [htl] at h
      simp only at h
      split at h
      · rename_i hle
        simp only [Option.some.injEq, Prod.mk.injEq] at h
        obtain ⟨rfl, rfl⟩ := h
        rcases List.mem_cons.mp hx with rfl | hx2
        · exact Nat.le_refl _
        · exact Nat.le_trans hle (ih htl x hx2)
      · rename_i hlt
        simp only [Option.some.injEq, Prod.mk.injEq] at h
        obtain ⟨rfl, rfl⟩ := h
        rcases List.mem_cons.mp hx with rfl | hx2
        · exact Nat.le_of_lt (Nat.lt_of_not_le hlt)
        · exact ih htl x hx2

theorem popMinEntry_eq_none {q : List (Nat × Node)} :
    popMinEntry q = none ↔ q = [] := by
  cases q with
  | nil => simp [popMinEntry]
  | cons n rest =>
    simp only [popMinEntry]
    constructor
    · intro h
      exfalso
      revert h
      cases popMinEntry rest with
      | none => simp
      | some pr =>
        cases pr with
        | mk m rest2 => simp only; split <;> simp
    · intro h
      exact absurd h (by simp)

theorem popMinEntry_perm : ∀ {q : List (Nat × Node)} {m : Nat × Node}
    {rest : List (Nat × Node)},
    popMinEntry q = some (m, rest) → q.Perm (m :: rest) := by
  intro q
  induction q with
  | nil => intro m rest h; exact absurd h (by simp [popMinEntry])
  | cons n tl ih =>
    intro m rest h
    simp only [popMinEntry] at h
    cases htl : popMinEntry tl with
    | none =>
      rw [htl] at h
      simp only [Option.some.injEq, Prod.mk.injEq] at h
      obtain ⟨rfl, rfl⟩ := h
      have : tl = [] := popMinEntry_eq_none.mp htl
      subst this
      exact List.Perm.refl _
    | some pr =>
      obtain ⟨m2, rest2⟩ := pr
      rw [htl] at h
      simp only at h
      split at h
      · simp only [Option.some.injEq, Prod.mk.injEq] at h
        obtain ⟨rfl, rfl⟩ := h
        exact List.Perm.refl _
      · simp only [Option.some.injEq, Prod.mk.injEq] at h
        obtain ⟨rfl, rfl⟩ := h
        have hperm := ih htl
        exact (hperm.cons n).trans (List.Perm.swap m2 n rest2)

@[simp] theorem Node.x_child (x y : Int) (c : Nat) (t : Int) (p : Node) :
    (Node.child x y c t p).x = x := rfl

@[simp] theorem Node.y_child (x y : Int) (c : Nat) (t : Int) (p : Node) :
    (Node.child x y c t p).y = y := rfl

@[simp] theorem Node.cost_child (x y : Int) (c : Nat) (t : Int) (p : Node) :
    (Node.child x y c t p).cost = c := rfl

@[simp] theorem Node.time_step_child (x y : Int) (c : Nat) (t : Int) (p : Node) :
    (Node.child x y c t p).time_step = t := rfl

@[simp] theorem nodeKey_child (x y : Int) (c : Nat) (t : Int) (p : Node) :
    nodeKey (Node.child x y c t p) = (x, y, t) := rfl

@[simp] theorem nodeKey_root (x y : Int) (c : Nat) (t : Int) :
    nodeKey (Node.root x y c t) = (x, y, t) := rfl

/-- Full characterisation of the UCS successor loop: the queue is extended on
the right by a list of freshly created children, each generated by one of the
processed directions, valid at the next time step, and with a key that was not
yet visited; the added keys are distinct; and the new visited set is exactly
the old one plus the added keys. -/
theorem ucs_step_spec (g : Grid) (cur : Node) :
    ∀ (dirs : List Direction) (q : List Node) (v : List (Int × Int × Int)),
      ∃ added : List Node,
        (ucs_step g cur dirs (q, v)).1 = q ++ added ∧
        (∀ n ∈ added, (∃ d ∈ dirs,
            n = Node.child (cur.x + d.value.1) (cur.y + d.value.2)
                (cur.cost + g.get_cost (cur.x + d.value.1) (cur.y + d.value.2))
                (cur.time_step + 1) cur ∧
            g.is_valid (cur.x + d.value.1) (cur.y + d.value.2)
                (cur.time_step + 1) = true) ∧ nodeKey n ∉ v) ∧
        (added.map nodeKey).Nodup ∧
        (∀ k, k ∈ (ucs_step g cur dirs (q, v)).2 ↔ k ∈ v ∨ k ∈ added.map nodeKey) := by
  intro dirs
  induction dirs with
  | nil =>
    intro q v
    exact ⟨[], by simp [ucs_step], by simp, by simp, by simp [ucs_step]⟩
  | cons d rest ih =>
    intro q v
    by_cases hval : g.is_valid (cur.x + d.value.1) (cur.y + d.value.2)
        (cur.time_step + 1) = true
    · by_cases hfresh : (cur.x + d.value.1, cur.y + d.value.2,
          cur.time_step + 1) ∈ v
      · have hstep : ucs_step g cur (d :: rest) (q, v) = ucs_step g cur rest (q, v) := by
          simp only [ucs_step, hval, if_true]
          rw [if_neg]
          simp only [Bool.not_eq_true', Bool.not_eq_false]
          exact List.elem_iff.mpr hfresh
        obtain ⟨added, h1, h2, h3, h4⟩ := ih q v
        refine ⟨added, by rwa [hstep], ?_, h3, by rwa [hstep]⟩
        intro n hn
        obtain ⟨⟨dd, hdd, hrest⟩, hnotin⟩ := h2 n hn
        exact ⟨⟨dd, List.mem_cons_of_mem _ hdd, hrest⟩, hnotin⟩
      · set node := Node.child (cur.x + d.value.1) (cur.y + d.value.2)
            (cur.cost + g.get_cost (cur.x + d.value.1) (cur.y + d.value.2))
            (cur.time_step + 1) cur with hnode
        have hstep : ucs_step g cur (d :: rest) (q, v) =
            ucs_step g cur rest (q ++ [node],
              (cur.x + d.value.1, cur.y + d.value.2, cur.time_step + 1) :: v) := by
          simp only [ucs_step, hval, if_true]
          rw [if_pos]
          simp only [Bool.not_eq_true']
          rw [← Bool.not_eq_true]
          intro hc
          exact hfresh (List.elem_iff.mp hc)
        obtain ⟨added, h1, h2, h3, h4⟩ := ih (q ++ [node])
          ((cur.x + d.value.1, cur.y + d.value.2, cur.time_step + 1) :: v)
        refine ⟨node :: added, ?_, ?_, ?_, ?_⟩
        · rw [hstep, h1, List.append_assoc]
          rfl
        · intro n hn
          rcases List.mem_cons.mp hn with rfl | hn2
          · exact ⟨⟨d, List.mem_cons_self _ _, rfl, hval⟩, by simpa [hnode] using hfresh⟩
          · obtain ⟨⟨dd, hdd, hrest⟩, hnotin⟩ := h2 n hn2
            refine ⟨⟨dd, List.mem_cons_of_mem _ hdd, hrest⟩, ?_⟩
            intro hmem
            exact hnotin (List.mem_cons_of_mem _ hmem)
        · simp only [List.map_cons, List.nodup_cons]
          constructor
          · intro hmem
            obtain ⟨n2, hn2, hkey⟩ := List.mem_map.mp hmem
            obtain ⟨_, hnotin⟩ := h2 n2 hn2
            apply hnotin
            rw [hkey]
            simp [hnode]
          · exact h3
        · intro k
          rw [hstep, h4 k]
          simp only [List.mem_cons, List.map_cons]
          constructor
          · rintro (⟨rfl | hkv⟩ | hka)
            · right
              left
              simp [hnode]
            · exact Or.inl hkv
            · right
              right
              exact hka
          · rintro (hkv | hk)
            · exact Or.inl (Or.inr hkv)
            · rcases hk with rfl | hka
              · left
                left
                simp [hnode]
              · right
                exact hka
    · have hstep : ucs_step g cur (d :: rest) (q, v) = ucs_step g cur rest (q, v) := by
        simp only [ucs_step]
        rw [if_neg]
        simpa using hval
      obtain ⟨added, h1, h2, h3, h4⟩ := ih q v
      refine ⟨added, by rwa [hstep], ?_, h3, by rwa [hstep]⟩
      intro n hn
      obtain ⟨⟨dd, hdd, hrest⟩, hnotin⟩ := h2 n hn
      exact ⟨⟨dd, List.mem_cons_of_mem _ hdd, hrest⟩, hnotin⟩

/-- Monotonicity of the visited set across the UCS successor loop. -/
theorem ucs_step_visited_mono (g : Grid) (cur : Node) (dirs : List Direction)
    (q : List Node) (v : List (Int × Int × Int)) (k : Int × Int × Int)
    (hk : k ∈ v) : k ∈ (ucs_step g cur dirs (q, v)).2 := by
  obtain ⟨added, _, _, _, h4⟩ := ucs_step_spec g cur dirs q v
  exact (h4 k).mpr (Or.inl hk)

/-- Queue monotonicity across the UCS successor loop. -/
theorem ucs_step_queue_mono (g : Grid) (cur : Node) (dirs : List Direction)
    (q : List Node) (v : List (Int × Int × Int)) (n : Node) (hn : n ∈ q) :
    n ∈ (ucs_step g cur dirs (q, v)).1 := by
  obtain ⟨added, h1, _, _, _⟩ := ucs_step_spec g cur dirs q v
  rw [h1]
  exact List.mem_append_left _ hn

/-- A valid successor in a processed direction whose key is not yet visited
ends up in the queue, with cost exactly `cur.cost` plus the entered cell's
terrain cost. (If an earlier direction already enqueued the same key, that
child has the same position and hence the same cost.) -/
theorem ucs_step_covers (g : Grid) (cur : Node) :
    ∀ (dirs : List Direction) (q : List Node) (v : List (Int × Int × Int))
      (d : Direction), d ∈ dirs →
      g.is_valid (cur.x + d.value.1) (cur.y + d.value.2) (cur.time_step + 1) = true →
      (cur.x + d.value.1, cur.y + d.value.2, cur.time_step + 1) ∉ v →
      ∃ n ∈ (ucs_step g cur dirs (q, v)).1,
        nodeKey n = (cur.x + d.value.1, cur.y + d.value.2, cur.time_step + 1) ∧
        n.cost = cur.cost + g.get_cost (cur.x + d.value.1) (cur.y + d.value.2) := by
  intro dirs
  induction dirs with
  | nil =>
    intro q v d hd
    exact absurd hd (by simp)
  | cons d0 rest ih =>
    intro q v d hd hval hfresh
    rcases List.mem_cons.mp hd with rfl | hdrest
    · have hstep : ucs_step g cur (d :: rest) (q, v) =
          ucs_step g cur rest (q ++ [Node.child (cur.x + d.value.1)
            (cur.y + d.value.2)
            (cur.cost + g.get_cost (cur.x + d.value.1) (cur.y + d.value.2))
            (cur.time_step + 1) cur],
            (cur.x + d.value.1, cur.y + d.value.2, cur.time_step + 1) :: v) := by
        simp only [ucs_step, hval, if_true]
        rw [if_pos]
        simp only [Bool.not_eq_true']
        rw [← Bool.not_eq_true]
        intro hc
        exact hfresh (List.elem_iff.mp hc)
      rw [hstep]
      refine ⟨Node.child (cur.x + d.value.1) (cur.y + d.value.2)
          (cur.cost + g.get_cost (cur.x + d.value.1) (cur.y + d.value.2))
          (cur.time_step + 1) cur, ?_, by simp, by simp⟩
      exact ucs_step_queue_mono g cur rest _ _ _ (List.mem_append_right _ (by simp))
    · by_cases hval0 : g.is_valid (cur.x + d0.value.1) (cur.y + d0.value.2)
          (cur.time_step + 1) = true
      · by_cases hfresh0 : (cur.x + d0.value.1, cur.y + d0.value.2,
            cur.time_step + 1) ∈ v
        · have hstep : ucs_step g cur (d0 :: rest) (q, v) =
              ucs_step g cur rest (q, v) := by
            simp only [ucs_step, hval0, if_true]
            rw [if_neg]
            simp only [Bool.not_eq_true', Bool.not_eq_false]
            exact List.elem_iff.mpr hfresh0
          rw [hstep]
          exact ih q v d hdrest hval hfresh
        · set node := Node.child (cur.x + d0.value.1) (cur.y + d0.value.2)
              (cur.cost + g.get_cost (cur.x + d0.value.1) (cur.y + d0.value.2))
              (cur.time_step + 1) cur with hnode
          have hstep : ucs_step g cur (d0 :: rest) (q, v) =
              ucs_step g cur rest (q ++ [node],
                (cur.x + d0.value.1, cur.y + d0.value.2, cur.time_step + 1) :: v) := by
            simp only [ucs_step, hval0, if_true]
            rw [if_pos]
            simp only [Bool.not_eq_true']
            rw [← Bool.not_eq_true]
            intro hc
            exact hfresh0 (List.elem_iff.mp hc)
          rw [hstep]
          by_cases hsame : (cur.x + d.value.1, cur.y + d.value.2, cur.time_step + 1) =
              (cur.x + d0.value.1, cur.y + d0.value.2, cur.time_step + 1)
          · have hx : cur.x + d.value.1 = cur.x + d0.value.1 := congrArg Prod.fst hsame
            have hy : cur.y + d.value.2 = cur.y + d0.value.2 :=
              congrArg (fun k => k.2.1) hsame
            refine ⟨node, ?_, ?_, ?_⟩
            · exact ucs_step_queue_mono g cur rest _ _ _
                (List.mem_append_right _ (by simp))
            · simp [hnode, hx, hy]
            · simp [hnode, hx, hy]
          · refine ih _ _ d hdrest hval ?_
            intro hmem
            rcases List.mem_cons.mp hmem with heq | hmem2
            · exact hsame heq
            · exact hfresh hmem2
      · have hstep : ucs_step g cur (d0 :: rest) (q, v) =
            ucs_step g cur rest (q, v) := by
          simp only [ucs_step]
          rw [if_neg]
          simpa using hval0
        rw [hstep]
        exact ih q v d hdrest hval hfresh

/-- The UCS loop invariant. `queue` and `visited` are the program's own data;
`popped` is proof-side bookkeeping recording, for every state already popped
from the frontier, its key and the cost it was popped with. The decomposition
fields record that every non-start entry's cost is `b + get_cost(position)`
for some `b` that is a lower bound on every current queue cost — this is what
makes enqueue-time visited marking harmless here: the cost of entering a cell
does not depend on the predecessor. -/
structure UCSInv (g : Grid) (st sx sy gx gy : Int) (queue : List Node)
    (visited : List (Int × Int × Int))
    (popped : List ((Int × Int × Int) × Nat)) : Prop where
  queue_ok : ∀ n ∈ queue, NodeOK g st (sx, sy) n
  queue_keys_nodup : (queue.map nodeKey).Nodup
  queue_sub : ∀ n ∈ queue, nodeKey n ∈ visited
  popped_sub : ∀ r ∈ popped, r.1 ∈ visited
  visited_cover : ∀ k ∈ visited,
    (∃ n ∈ queue, nodeKey n = k) ∨ ∃ c, (k, c) ∈ popped
  popped_disjoint : ∀ r ∈ popped, ∀ n ∈ queue, nodeKey n ≠ r.1
  popped_not_goal : ∀ r ∈ popped, ¬(r.1.1 = gx ∧ r.1.2.1 = gy)
  start_mem : (sx, sy, st) ∈ visited
  queue_start_cost : ∀ n ∈ queue, nodeKey n = (sx, sy, st) → n.cost = 0
  popped_start_cost : ∀ c : Nat, ((sx, sy, st), c) ∈ popped → c = 0
  queue_decomp : ∀ n ∈ queue, nodeKey n ≠ (sx, sy, st) →
    ∃ b, n.cost = b + g.get_cost n.x n.y ∧ ∀ q ∈ queue, b ≤ q.cost
  popped_decomp : ∀ r ∈ popped, r.1 ≠ (sx, sy, st) →
    ∃ b, r.2 = b + g.get_cost r.1.1 r.1.2.1 ∧ ∀ q ∈ queue, b ≤ q.cost
  closure : ∀ r ∈ popped, ∀ d ∈ Direction.get_all,
    g.is_valid (r.1.1 + d.value.1) (r.1.2.1 + d.value.2) (r.1.2.2 + 1) = true →
    (∃ n ∈ queue,
        nodeKey n = (r.1.1 + d.value.1, r.1.2.1 + d.value.2, r.1.2.2 + 1) ∧
        n.cost ≤ r.2 + g.get_cost (r.1.1 + d.value.1) (r.1.2.1 + d.value.2)) ∨
    ∃ c2, ((r.1.1 + d.value.1, r.1.2.1 + d.value.2, r.1.2.2 + 1), c2) ∈ popped ∧
        c2 ≤ r.2 + g.get_cost (r.1.1 + d.value.1) (r.1.2.1 + d.value.2)

/-- The key chain argument of the UCS optimality proof: under the invariant,
every feasible path from the start is tracked — either some node currently in
the queue undercuts its cost, or its endpoint state has already been popped at
an undercutting cost. Proved by walking the path from the start: the start
state is covered, and the closure field pushes coverage across each step. -/
theorem UCSInv.path_bound {g : Grid} {st sx sy gx gy : Int} {queue : List Node}
    {visited : List (Int × Int × Int)} {popped : List ((Int × Int × Int) × Nat)}
    (inv : UCSInv g st sx sy gx gy queue visited popped) :
    ∀ {π : List (Int × Int)} {p : Int × Int} {t : Int},
      Feas g st (sx, sy) π p t →
      (∃ n ∈ queue, n.cost ≤ pathCost g π) ∨
      ∃ c, ((p.1, p.2, t), c) ∈ popped ∧ c ≤ pathCost g π := by
  intro π p t hfeas
  induction hfeas with
  | base =>
    rcases inv.visited_cover (sx, sy, st) inv.start_mem with ⟨n, hn, hkey⟩ | ⟨c, hc⟩
    · left
      exact ⟨n, hn, by rw [inv.queue_start_cost n hn hkey]; exact Nat.zero_le _⟩
    · right
      exact ⟨c, hc, by rw [inv.popped_start_cost c hc]; exact Nat.zero_le _⟩
  | snoc hσ hstep hvalid ih =>
    rename_i σ p2 q2 t2
    have hσne := hσ.ne_nil
    have hcost : pathCost g (σ ++ [q2]) = pathCost g σ + g.get_cost q2.1 q2.2 :=
      pathCost_snoc g σ q2 hσne
    rcases ih with ⟨n, hn, hle⟩ | ⟨c, hc, hle⟩
    · left
      exact ⟨n, hn, by rw [hcost]; exact Nat.le_trans hle (Nat.le_add_right _ _)⟩
    · obtain ⟨d, hd, hq2⟩ := hstep
      have hvalid2 : g.is_valid (p2.1 + d.value.1) (p2.2 + d.value.2) (t2 + 1) = true := by
        rw [hq2] at hvalid
        exact hvalid
      rcases inv.closure ((p2.1, p2.2, t2), c) hc d hd hvalid2 with
        ⟨n, hn, hkey, hb⟩ | ⟨c2, hc2, hb⟩
      · left
        refine ⟨n, hn, ?_⟩
        rw [hcost, hq2]
        exact Nat.le_trans hb (Nat.add_le_add_right hle _)
      · right
        refine ⟨c2, ?_, ?_⟩
        · rw [hq2]
          exact hc2
        · rw [hcost, hq2]
          exact Nat.le_trans hb (Nat.add_le_add_right hle _)

/-- The invariant holds at the initial state of `UCSPlanner.plan`. -/
theorem UCSInv.init (g : Grid) (st sx sy gx gy : Int) :
    UCSInv g st sx sy gx gy [Node.root sx sy 0 st] [(sx, sy, st)] [] where
  queue_ok := by
    intro n hn
    rcases List.mem_singleton.mp hn with rfl
    exact NodeOK_root g st sx sy
  queue_keys_nodup := by simp
  queue_sub := by
    intro n hn
    rcases List.mem_singleton.mp hn with rfl
    simp [nodeKey, Node.x, Node.y, Node.time_step]
  popped_sub := by simp
  visited_cover := by
    intro k hk
    rcases List.mem_singleton.mp hk with rfl
    left
    exact ⟨Node.root sx sy 0 st, by simp, rfl⟩
  popped_disjoint := by simp
  popped_not_goal := by simp
  start_mem := by simp
  queue_start_cost := by
    intro n hn _
    rcases List.mem_singleton.mp hn with rfl
    rfl
  popped_start_cost := by simp
  queue_decomp := by
    intro n hn hne
    rcases List.mem_singleton.mp hn with rfl
    exact absurd rfl hne
  popped_decomp := by simp
  closure := by simp

/-- One non-goal expansion of the UCS loop preserves the invariant, recording
the popped node's key and cost. -/
theorem UCSInv.maintain {g : Grid} {st sx sy gx gy : Int} {queue : List Node}
    {visited : List (Int × Int × Int)} {popped : List ((Int × Int × Int) × Nat)}
    (inv : UCSInv g st sx sy gx gy queue visited popped)
    {m : Node} {rest : List Node}
    (hpop : popMinNode queue = some (m, rest))
    (hnotgoal : ¬(m.x = gx ∧ m.y = gy)) :
    UCSInv g st sx sy gx gy
      (ucs_step g m Direction.get_all (rest, visited)).1
      (ucs_step g m Direction.get_all (rest, visited)).2
      ((nodeKey m, m.cost) :: popped) := by
  have hperm := popMinNode_perm hpop
  have hmin := popMinNode_min hpop
  have hmem_m : m ∈ queue := popMinNode_mem hpop
  have hrest_sub : ∀ n ∈ rest, n ∈ queue := by
    intro n hn
    exact hperm.mem_iff.mpr (List.mem_cons_of_mem _ hn)
  have hsplit : ∀ n ∈ queue, n = m ∨ n ∈ rest := by
    intro n hn
    exact List.mem_cons.mp (hperm.mem_iff.mp hn)
  obtain ⟨added, hq1, hadd, hnodup_add, hvis⟩ :=
    ucs_step_spec g m Direction.get_all rest visited
  have hmOK : NodeOK g st (sx, sy) m := inv.queue_ok m hmem_m
  have hm_time : st ≤ m.time_step := by
    have h1 := hmOK.1.time_eq
    have h2 : 1 ≤ m.get_path.length := List.length_pos.mpr hmOK.1.ne_nil
    omega
  have hadd_cost : ∀ n ∈ added, n.cost = m.cost + g.get_cost n.x n.y := by
    intro n hn
    obtain ⟨⟨d, _, rfl, _⟩, _⟩ := hadd n hn
    simp [Grid.get_cost]
  have hadd_time : ∀ n ∈ added, n.time_step = m.time_step + 1 := by
    intro n hn
    obtain ⟨⟨d, _, rfl, _⟩, _⟩ := hadd n hn
    simp
  have hadd_fresh : ∀ n ∈ added, nodeKey n ∉ visited := by
    intro n hn
    exact (hadd n hn).2
  have hadd_ok : ∀ n ∈ added, NodeOK g st (sx, sy) n := by
    intro n hn
    obtain ⟨⟨d, hd, rfl, hval⟩, _⟩ := hadd n hn
    exact NodeOK_child g st (sx, sy) m hmOK _ _ ⟨d, hd, rfl⟩ hval
  have hmkey_vis : nodeKey m ∈ visited := inv.queue_sub m hmem_m
  have hQmem : ∀ n, n ∈ (ucs_step g m Direction.get_all (rest, visited)).1 ↔
      n ∈ rest ∨ n ∈ added := by
    intro n
    rw [hq1, List.mem_append]
  have hrest_keys : ((m :: rest).map nodeKey).Nodup :=
    (hperm.map nodeKey).nodup_iff.mp inv.queue_keys_nodup
  constructor
  case queue_ok =>
    intro n hn
    rcases (hQmem n).mp hn with h | h
    · exact inv.queue_ok n (hrest_sub n h)
    · exact hadd_ok n h
  case queue_keys_nodup =>
    rw [hq1, List.map_append, List.nodup_append]
    refine ⟨(List.nodup_cons.mp hrest_keys).2, hnodup_add, ?_⟩
    intro k hk1 hk2
    obtain ⟨n1, hn1, rfl⟩ := List.mem_map.mp hk1
    obtain ⟨n2, hn2, hkeq⟩ := List.mem_map.mp hk2
    have hv1 : nodeKey n1 ∈ visited := inv.queue_sub n1 (hrest_sub n1 hn1)
    rw [← hkeq] at hv1
    exact hadd_fresh n2 hn2 hv1
  case queue_sub =>
    intro n hn
    rcases (hQmem n).mp hn with h | h
    · exact (hvis (nodeKey n)).mpr (Or.inl (inv.queue_sub n (hrest_sub n h)))
    · exact (hvis (nodeKey n)).mpr (Or.inr (List.mem_map_of_mem _ h))
  case popped_sub =>
    intro r hr
    rcases List.mem_cons.mp hr with heq | hr2
    · rw [heq]
      exact (hvis (nodeKey m)).mpr (Or.inl hmkey_vis)
    · exact (hvis r.1).mpr (Or.inl (inv.popped_sub r hr2))
  case visited_cover =>
    intro k hk
    rcases (hvis k).mp hk with hk1 | hk2
    · rcases inv.visited_cover k hk1 with ⟨n, hn, hkey⟩ | ⟨c, hc⟩
      · rcases hsplit n hn with heq | hn2
        · right
          refine ⟨m.cost, ?_⟩
          rw [← hkey, heq]
          exact List.mem_cons_self _ _
        · left
          exact ⟨n, (hQmem n).mpr (Or.inl hn2), hkey⟩
      · right
        exact ⟨c, List.mem_cons_of_mem _ hc⟩
    · obtain ⟨n, hn, rfl⟩ := List.mem_map.mp hk2
      left
      exact ⟨n, (hQmem n).mpr (Or.inr hn), rfl⟩
  case popped_disjoint =>
    intro r hr n hn
    rcases List.mem_cons.mp hr with heq | hr2
    · rw [heq]
      change nodeKey n ≠ nodeKey m
      rcases (hQmem n).mp hn with h | h
      · intro hkeq
        have h2 := (List.nodup_cons.mp hrest_keys).1
        exact h2 (hkeq ▸ List.mem_map_of_mem nodeKey h)
      · intro hkeq
        exact hadd_fresh n h (hkeq ▸ hmkey_vis)
    · rcases (hQmem n).mp hn with h | h
      · exact inv.popped_disjoint r hr2 n (hrest_sub n h)
      · intro hkeq
        exact hadd_fresh n h (hkeq ▸ inv.popped_sub r hr2)
  case popped_not_goal =>
    intro r hr
    rcases List.mem_cons.mp hr with heq | hr2
    · rw [heq]
      exact hnotgoal
    · exact inv.popped_not_goal r hr2
  case start_mem =>
    exact (hvis _).mpr (Or.inl inv.start_mem)
  case queue_start_cost =>
    intro n hn hkey
    rcases (hQmem n).mp hn with h | h
    · exact inv.queue_start_cost n (hrest_sub n h) hkey
    · exfalso
      have h1 := hadd_time n h
      have h2 : n.time_step = st := congrArg (fun k => k.2.2) hkey
      omega
  case popped_start_cost =>
    intro c hc
    rcases List.mem_cons.mp hc with heq | hc2
    · have h1 : (sx, sy, st) = nodeKey m := congrArg Prod.fst heq
      have h2 : c = m.cost := congrArg Prod.snd heq
      rw [h2]
      exact inv.queue_start_cost m hmem_m h1.symm
    · exact inv.popped_start_cost c hc2
  case queue_decomp =>
    intro n hn hne
    rcases (hQmem n).mp hn with h | h
    · obtain ⟨b, hb1, hb2⟩ := inv.queue_decomp n (hrest_sub n h) hne
      refine ⟨b, hb1, ?_⟩
      intro q hq
      rcases (hQmem q).mp hq with h2 | h2
      · exact hb2 q (hrest_sub q h2)
      · rw [hadd_cost q h2]
        exact Nat.le_trans (hb2 m hmem_m) (Nat.le_add_right _ _)
    · refine ⟨m.cost, hadd_cost n h, ?_⟩
      intro q hq
      rcases (hQmem q).mp hq with h2 | h2
      · exact hmin q (hrest_sub q h2)
      · rw [hadd_cost q h2]
        exact Nat.le_add_right _ _
  case popped_decomp =>
    intro r hr hne
    rcases List.mem_cons.mp hr with heq | hr2
    · rw [heq] at hne ⊢
      obtain ⟨b, hb1, hb2⟩ := inv.queue_decomp m hmem_m hne
      refine ⟨b, hb1, ?_⟩
      intro q hq
      rcases (hQmem q).mp hq with h2 | h2
      · exact hb2 q (hrest_sub q h2)
      · rw [hadd_cost q h2]
        exact Nat.le_trans (hb2 m hmem_m) (Nat.le_add_right _ _)
    · obtain ⟨b, hb1, hb2⟩ := inv.popped_decomp r hr2 hne
      refine ⟨b, hb1, ?_⟩
      intro q hq
      rcases (hQmem q).mp hq with h2 | h2
      · exact hb2 q (hrest_sub q h2)
      · rw [hadd_cost q h2]
        exact Nat.le_trans (hb2 m hmem_m) (Nat.le_add_right _ _)
  case closure =>
    intro r hr d hd hval
    rcases List.mem_cons.mp hr with heq | hr2
    · -- the newly popped record: its successors are covered by the expansion
      rw [heq] at hval ⊢
      by_cases hfresh : ((m.x + d.value.1, m.y + d.value.2, m.time_step + 1) :
          Int × Int × Int) ∈ visited
      · -- already visited before this expansion
        rcases inv.visited_cover _ hfresh with ⟨n2, hn2, hkey2⟩ | ⟨c2, hc2⟩
        · rcases hsplit n2 hn2 with heq2 | hn2r
          · exfalso
            rw [heq2] at hkey2
            have ht : m.time_step = m.time_step + 1 :=
              congrArg (fun k => k.2.2) hkey2
            omega
          · left
            refine ⟨n2, (hQmem n2).mpr (Or.inl hn2r), hkey2, ?_⟩
            have hne2 : nodeKey n2 ≠ (sx, sy, st) := by
              rw [hkey2]
              intro hc
              have ht : m.time_step + 1 = st := congrArg (fun k => k.2.2) hc
              omega
            obtain ⟨b, hb1, hb2⟩ := inv.queue_decomp n2 (hrest_sub n2 hn2r) hne2
            have hx2 : n2.x = m.x + d.value.1 := congrArg (fun k => k.1) hkey2
            have hy2 : n2.y = m.y + d.value.2 := congrArg (fun k => k.2.1) hkey2
            rw [hb1, hx2, hy2]
            exact Nat.add_le_add_right (hb2 m hmem_m) _
        · right
          refine ⟨c2, List.mem_cons_of_mem _ hc2, ?_⟩
          have hne2 : ((m.x + d.value.1, m.y + d.value.2, m.time_step + 1) :
              Int × Int × Int) ≠ (sx, sy, st) := by
            intro hc
            have ht : m.time_step + 1 = st := congrArg (fun k => k.2.2) hc
            omega
          obtain ⟨b, hb1, hb2⟩ := inv.popped_decomp _ hc2 hne2
          simp only at hb1
          rw [hb1]
          exact Nat.add_le_add_right (hb2 m hmem_m) _
      · -- fresh: the expansion enqueued exactly this successor
        obtain ⟨n2, hn2, hkey2, hcost2⟩ :=
          ucs_step_covers g m Direction.get_all rest visited d hd hval hfresh
        left
        exact ⟨n2, hn2, hkey2, Nat.le_of_eq hcost2⟩
    · -- an old record: its old witness survives or was just popped
      rcases inv.closure r hr2 d hd hval with ⟨n2, hn2, hkey2, hb2⟩ | ⟨c2, hc2, hb2⟩
      · rcases hsplit n2 hn2 with heq2 | hn2r
        · right
          refine ⟨m.cost, ?_, ?_⟩
          · rw [← hkey2, heq2]
            exact List.mem_cons_self _ _
          · rw [← heq2]
            exact hb2
        · left
          exact ⟨n2, (hQmem n2).mpr (Or.inl hn2r), hkey2, hb2⟩
      · right
        exact ⟨c2, List.mem_cons_of_mem _ hc2, hb2⟩

/-- Soundness of the UCS loop under the invariant: a returned node is a
well-formed goal node whose cost undercuts every feasible path to the goal
position. -/
theorem ucs_loop_sound (g : Grid) (st sx sy gx gy : Int) :
    ∀ (fuel : Nat) (queue : List Node) (visited : List (Int × Int × Int))
      (popped : List ((Int × Int × Int) × Nat)) (n : Node),
      UCSInv g st sx sy gx gy queue visited popped →
      ucs_loop g gx gy fuel queue visited = some n →
      (NodeOK g st (sx, sy) n ∧ n.x = gx ∧ n.y = gy) ∧
        ∀ (π : List (Int × Int)) (t : Int),
          Feas g st (sx, sy) π (gx, gy) t → n.cost ≤ pathCost g π := by
  intro fuel
  induction fuel with
  | zero =>
    intro queue visited popped n _ h
    exact absurd h (by simp [ucs_loop])
  | succ fuel ih =>
    intro queue visited popped n inv h
    simp only [ucs_loop] at h
    cases hpop : popMinNode queue with
    | none =>
      rw [hpop] at h
      exact absurd h (by simp)
    | some pr =>
      obtain ⟨m, rest⟩ := pr
      rw [hpop] at h
      simp only at h
      by_cases hgoal : (m.x == gx && m.y == gy) = true
      · rw [if_pos hgoal] at h
        have hn : n = m := (Option.some_injective _ h).symm
        subst hn
        have hcoords : n.x = gx ∧ n.y = gy := by
          simpa using hgoal
        refine ⟨⟨inv.queue_ok n (popMinNode_mem hpop), hcoords.1, hcoords.2⟩, ?_⟩
        intro π t hfeas
        rcases inv.path_bound hfeas with ⟨q, hq, hle⟩ | ⟨c, hc, hle⟩
        · exact Nat.le_trans (popMinNode_min hpop q hq) hle
        · exact absurd ⟨rfl, rfl⟩ (inv.popped_not_goal ((gx, gy, t), c) hc)
      · rw [if_neg hgoal] at h
        have hnotgoal : ¬(m.x = gx ∧ m.y = gy) := by
          intro hc
          exact hgoal (by simp [hc.1, hc.2])
        exact ih _ _ _ n (inv.maintain hpop hnotgoal) h

/-- C1 (amended): whenever `UCSPlanner.plan` returns a node, that node sits at
the goal position, reconstructs to a feasible time-indexed path from start to
goal whose terrain-cost sum equals the node's accumulated cost, and its cost
is minimal among the costs of all feasible time-indexed paths from the start
to the goal position. This is the first conjunct of the claim. The claim's
account of the mechanism, however, is wrong about the code: visited marking
occurs at enqueue time, exactly as in BFS (see the counterexample theorem),
and no re-insertion of cheaper duplicates ever happens; optimality survives
because the cost of entering a cell does not depend on which neighbour it is
entered from, so the first node enqueued for a state can never be undercut
later. -/
theorem ucs_first_goal_pop_minimal (g : Grid) (fuel : Nat) (sx sy gx gy st : Int)
    (n : Node) (h : UCSPlanner.plan g fuel sx sy gx gy st = some n)
    (π : List (Int × Int)) (hπ : FeasiblePath g st (sx, sy) π)
    (hlast : π.getLast? = some (gx, gy)) :
    n.cost ≤ pathCost g π ∧ n.x = gx ∧ n.y = gy ∧
      FeasiblePath g st (sx, sy) n.get_path ∧
      n.get_path.getLast? = some (gx, gy) ∧ pathCost g n.get_path = n.cost := by
  have hsound := ucs_loop_sound g st sx sy gx gy fuel _ _ [] n
    (UCSInv.init g st sx sy gx gy) h
  obtain ⟨⟨⟨hfeas, hcost⟩, hx, hy⟩, hmin⟩ := hsound
  have hfeasπ := Feas.ofFeasiblePath hπ hlast
  refine ⟨hmin π _ hfeasπ, hx, hy, hfeas.toFeasiblePath, ?_, hcost.symm⟩
  rw [hfeas.last_eq, hx, hy]

/-- Witness for C1 on `tinyGrid`: the returned goal node for the one-step
problem, checked against the feasible path `[(0,0), (1,0)]`. -/
theorem ucs_first_goal_pop_minimal_witness :
    (Node.child 1 0 1 1 (Node.root 0 0 0 0)).cost ≤
        pathCost tinyGrid [(0, 0), (1, 0)] ∧
      (Node.child 1 0 1 1 (Node.root 0 0 0 0)).x = 1 ∧
      (Node.child 1 0 1 1 (Node.root 0 0 0 0)).y = 0 ∧
      FeasiblePath tinyGrid 0 (0, 0) (Node.child 1 0 1 1 (Node.root 0 0 0 0)).get_path ∧
      (Node.child 1 0 1 1 (Node.root 0 0 0 0)).get_path.getLast? = some (1, 0) ∧
      pathCost tinyGrid (Node.child 1 0 1 1 (Node.root 0 0 0 0)).get_path =
        (Node.child 1 0 1 1 (Node.root 0 0 0 0)).cost :=
  ucs_first_goal_pop_minimal tinyGrid 5 0 0 1 0 0
    (Node.child 1 0 1 1 (Node.root 0 0 0 0)) (by decide)
    [(0, 0), (1, 0)] (by decide) (by decide)

/-- Every node in the queue after the BFS successor loop is an old node or a
valid freshly created child of the expanded node with cost `cur.cost + 1`. -/
theorem bfs_step_mem (g : Grid) (cur : Node) :
    ∀ (dirs : List Direction) (acc : List Node × List (Int × Int × Int)),
      ∀ n ∈ (bfs_step g cur dirs acc).1, n ∈ acc.1 ∨
        ∃ d ∈ dirs,
          n = Node.child (cur.x + d.value.1) (cur.y + d.value.2) (cur.cost + 1)
              (cur.time_step + 1) cur ∧
          g.is_valid (cur.x + d.value.1) (cur.y + d.value.2)
            (cur.time_step + 1) = true := by
  intro dirs
  induction dirs with
  | nil =>
    intro acc n hn
    exact Or.inl hn
  | cons d rest ih =>
    intro acc n hn
    rw [bfs_step] at hn
    by_cases hcond : (g.is_valid (cur.x + d.value.1) (cur.y + d.value.2)
        (cur.time_step + 1) &&
        !(acc.2.contains (cur.x + d.value.1, cur.y + d.value.2,
          cur.time_step + 1))) = true
    · rw [if_pos hcond] at hn
      rcases ih _ n hn with hn2 | ⟨dd, hdd, hform, hval⟩
      · rcases List.mem_append.mp hn2 with h | h
        · exact Or.inl h
        · right
          refine ⟨d, List.mem_cons_self _ _, List.mem_singleton.mp h, ?_⟩
          have hc2 := hcond
          simp only [Bool.and_eq_true] at hc2
          exact hc2.1
      · exact Or.inr ⟨dd, List.mem_cons_of_mem _ hdd, hform, hval⟩
    · rw [if_neg hcond] at hn
      rcases ih _ n hn with hn2 | ⟨dd, hdd, hform, hval⟩
      · exact Or.inl hn2
      · exact Or.inr ⟨dd, List.mem_cons_of_mem _ hdd, hform, hval⟩

/-- Every entry in the queue after the A* successor loop is an old entry or a
valid freshly created child with cost `cur.cost + get_cost(candidate)`. -/
theorem astar_step_mem (g : Grid) (gx gy : Int) (cur : Node) :
    ∀ (dirs : List Direction) (acc : List (Nat × Node) × List (Int × Int × Int)),
      ∀ e ∈ (astar_step g gx gy cur dirs acc).1, e ∈ acc.1 ∨
        ∃ d ∈ dirs,
          e.2 = Node.child (cur.x + d.value.1) (cur.y + d.value.2)
              (cur.cost + g.get_cost (cur.x + d.value.1) (cur.y + d.value.2))
              (cur.time_step + 1) cur ∧
          g.is_valid (cur.x + d.value.1) (cur.y + d.value.2)
            (cur.time_step + 1) = true := by
  intro dirs
  induction dirs with
  | nil =>
    intro acc e he
    exact Or.inl he
  | cons d rest ih =>
    intro acc e he
    rw [astar_step] at he
    by_cases hval : g.is_valid (cur.x + d.value.1) (cur.y + d.value.2)
        (cur.time_step + 1) = true
    · rw [if_pos hval] at he
      by_cases hfresh : (!(acc.2.contains (cur.x + d.value.1, cur.y + d.value.2,
          cur.time_step + 1))) = true
      · rw [if_pos hfresh] at he
        rcases ih _ e he with he2 | ⟨dd, hdd, hform, hvald⟩
        · rcases List.mem_append.mp he2 with h | h
          · exact Or.inl h
          · right
            refine ⟨d, List.mem_cons_self _ _, ?_, hval⟩
            rw [List.mem_singleton.mp h]
        · exact Or.inr ⟨dd, List.mem_cons_of_mem _ hdd, hform, hvald⟩
      · rw [if_neg hfresh] at he
        rcases ih _ e he with he2 | ⟨dd, hdd, hform, hvald⟩
        · exact Or.inl he2
        · exact Or.inr ⟨dd, List.mem_cons_of_mem _ hdd, hform, hvald⟩
    · rw [if_neg hval] at he
      rcases ih _ e he with he2 | ⟨dd, hdd, hform, hvald⟩
      · exact Or.inl he2
      · exact Or.inr ⟨dd, List.mem_cons_of_mem _ hdd, hform, hvald⟩

/-- A node returned by the BFS loop is well formed, provided every queued node
is: its cost counts hops and its path is feasible. -/
theorem bfs_loop_sound (g : Grid) (st sx sy gx gy : Int) :
    ∀ (fuel : Nat) (queue : List Node) (visited : List (Int × Int × Int))
      (n : Node),
      (∀ m ∈ queue, NodeHops g st (sx, sy) m) →
      bfs_loop g gx gy fuel queue visited = some n →
      NodeHops g st (sx, sy) n ∧ n.x = gx ∧ n.y = gy := by
  intro fuel
  induction fuel with
  | zero =>
    intro queue visited n _ h
    exact absurd h (by simp [bfs_loop])
  | succ fuel ih =>
    intro queue visited n hq h
    cases queue with
    | nil => exact absurd h (by simp [bfs_loop])
    | cons cur rest =>
      simp only [bfs_loop] at h
      by_cases hgoal : (cur.x == gx && cur.y == gy) = true
      · rw [if_pos hgoal] at h
        have hn : n = cur := (Option.some_injective _ h).symm
        subst hn
        have hcoords : n.x = gx ∧ n.y = gy := by simpa using hgoal
        exact ⟨hq n (List.mem_cons_self _ _), hcoords.1, hcoords.2⟩
      · rw [if_neg hgoal] at h
        refine ih _ _ n ?_ h
        intro m hm
        rcases bfs_step_mem g cur Direction.get_all (rest, visited) m hm with
          h2 | ⟨d, hd, hform, hval⟩
        · exact hq m (List.mem_cons_of_mem _ h2)
        · rw [hform]
          exact NodeHops_child g st (sx, sy) cur
            (hq cur (List.mem_cons_self _ _)) _ _ ⟨d, hd, rfl⟩ hval

/-- A node returned by the A* loop is well formed, provided every queued entry
is: its cost is the terrain-cost sum of its feasible path. -/
theorem astar_loop_sound (g : Grid) (st sx sy gx gy : Int) :
    ∀ (fuel : Nat) (queue : List (Nat × Node)) (visited : List (Int × Int × Int))
      (n : Node),
      (∀ e ∈ queue, NodeOK g st (sx, sy) e.2) →
      astar_loop g gx gy fuel queue visited = some n →
      NodeOK g st (sx, sy) n ∧ n.x = gx ∧ n.y = gy := by
  intro fuel
  induction fuel with
  | zero =>
    intro queue visited n _ h
    exact absurd h (by simp [astar_loop])
  | succ fuel ih =>
    intro queue visited n hq h
    simp only [astar_loop] at h
    cases hpop : popMinEntry queue with
    | none =>
      rw [hpop] at h
      exact absurd h (by simp)
    | some pr =>
      obtain ⟨cur, rest⟩ := pr
      rw [hpop] at h
      simp only at h
      have hperm := popMinEntry_perm hpop
      have hcur_mem : cur ∈ queue := hperm.mem_iff.mpr (List.mem_cons_self _ _)
      by_cases hgoal : (cur.2.x == gx && cur.2.y == gy) = true
      · rw [if_pos hgoal] at h
        have hn : n = cur.2 := (Option.some_injective _ h).symm
        have hcoords : cur.2.x = gx ∧ cur.2.y = gy := by simpa using hgoal
        rw [hn]
        exact ⟨hq cur hcur_mem, hcoords.1, hcoords.2⟩
      · rw [if_neg hgoal] at h
        refine ih _ _ n ?_ h
        intro e he
        rcases astar_step_mem g gx gy cur.2 Direction.get_all (rest, visited) e he with
          h2 | ⟨d, hd, hform, hval⟩
        · exact hq e (hperm.mem_iff.mpr (List.mem_cons_of_mem _ h2))
        · rw [hform]
          exact NodeOK_child g st (sx, sy) cur.2 (hq cur hcur_mem) _ _ ⟨d, hd, rfl⟩ hval

/-- Plan-level well-formedness for A*: the returned node is a goal node whose
path is feasible and whose cost is the terrain-cost sum of that path. -/
theorem astar_plan_nodeOK (g : Grid) (fuel : Nat) (sx sy gx gy st : Int)
    (n : Node) (h : AStarPlanner.plan g fuel sx sy gx gy st = some n) :
    NodeOK g st (sx, sy) n ∧ n.x = gx ∧ n.y = gy := by
  refine astar_loop_sound g st sx sy gx gy fuel _ _ n ?_ h
  intro e he
  rcases List.mem_singleton.mp he with rfl
  exact NodeOK_root g st sx sy

/-- Plan-level well-formedness for BFS. -/
theorem bfs_plan_nodeHops (g : Grid) (fuel : Nat) (sx sy gx gy st : Int)
    (n : Node) (h : BFSPlanner.plan g fuel sx sy gx gy st = some n) :
    NodeHops g st (sx, sy) n ∧ n.x = gx ∧ n.y = gy := by
  refine bfs_loop_sound g st sx sy gx gy fuel _ _ n ?_ h
  intro m hm
  rcases List.mem_singleton.mp hm with rfl
  exact NodeHops_root g st sx sy

/-- Plan-level well-formedness for UCS (no optimality, just accounting). -/
theorem ucs_plan_nodeOK (g : Grid) (fuel : Nat) (sx sy gx gy st : Int)
    (n : Node) (h : UCSPlanner.plan g fuel sx sy gx gy st = some n) :
    NodeOK g st (sx, sy) n ∧ n.x = gx ∧ n.y = gy := by
  have hsound := ucs_loop_sound g st sx sy gx gy fuel _ _ [] n
    (UCSInv.init g st sx sy gx gy) h
  exact hsound.1

section Claim4

/-- C4 (amended): for every node returned by a planner, the accounting is:
UCS and A* nodes carry the sum of the terrain costs of the cells entered
along their parent chain (root contributing zero); BFS nodes instead carry
the number of moves taken (`parent.cost + 1` per step, path length minus
one), which coincides with the terrain sum only on uniform road terrain. -/
theorem node_cost_accounting (g : Grid) (fuel : Nat) (sx sy gx gy st : Int) :
    (∀ n, BFSPlanner.plan g fuel sx sy gx gy st = some n →
        n.cost = n.get_path.length - 1) ∧
      (∀ n, UCSPlanner.plan g fuel sx sy gx gy st = some n →
        n.cost = pathCost g n.get_path) ∧
      (∀ n, AStarPlanner.plan g fuel sx sy gx gy st = some n →
        n.cost = pathCost g n.get_path) := by
  refine ⟨?_, ?_, ?_⟩
  · intro n h
    exact (bfs_plan_nodeHops g fuel sx sy gx gy st n h).1.2
  · intro n h
    exact (ucs_plan_nodeOK g fuel sx sy gx gy st n h).1.2
  · intro n h
    exact (astar_plan_nodeOK g fuel sx sy gx gy st n h).1.2

/-- Witness for the amended C4 on `grassGrid`: BFS returns cost 2 (two moves)
while UCS and A* return the terrain sum 4 for the same 3-waypoint path. -/
theorem node_cost_accounting_witness :
    (Node.child 2 0 2 2 (Node.child 1 0 1 1 (Node.root 0 0 0 0))).cost =
        (Node.child 2 0 2 2 (Node.child 1 0 1 1
          (Node.root 0 0 0 0))).get_path.length - 1 ∧
      (Node.child 2 0 4 2 (Node.child 1 0 3 1 (Node.root 0 0 0 0))).cost =
        pathCost grassGrid (Node.child 2 0 4 2 (Node.child 1 0 3 1
          (Node.root 0 0 0 0))).get_path ∧
      (Node.child 2 0 4 2 (Node.child 1 0 3 1 (Node.root 0 0 0 0))).cost =
        pathCost grassGrid (Node.child 2 0 4 2 (Node.child 1 0 3 1
          (Node.root 0 0 0 0))).get_path :=
  ⟨(node_cost_accounting grassGrid 20 0 0 2 0 0).1 _ (by decide),
    (node_cost_accounting grassGrid 20 0 0 2 0 0).2.1 _ (by decide),
    (node_cost_accounting grassGrid 20 0 0 2 0 0).2.2 _ (by decide)⟩

end Claim4

/-- Helper: `getD` after `set` at the written index. -/
theorem getD_set_eq (l : List (Int × Int)) (i : Nat) (a d : Int × Int)
    (h : i < l.length) : (l.set i a).getD i d = a := by
  rw [List.getD_eq_getElem _ _ (by simpa using h)]
  exact List.getElem_set_self (by simpa using h)

/-- Helper: `getD` after `set` at a different index. -/
theorem getD_set_ne (l : List (Int × Int)) (i j : Nat) (a d : Int × Int)
    (h : i ≠ j) : (l.set i a).getD j d = l.getD j d := by
  rcases Nat.lt_or_ge j l.length with hj | hj
  · rw [List.getD_eq_getElem _ _ (by simpa using hj), List.getD_eq_getElem _ _ hj]
    exact List.getElem_set_ne h ..
  · rw [List.getD_eq_default _ _ (by simpa using hj), List.getD_eq_default _ _ hj]

/-- One axis-aligned step covers exactly Manhattan distance one. -/
theorem stepOK_manhattan {p q : Int × Int} (h : stepOK p q) : manhattanP p q = 1 := by
  obtain ⟨d, _, rfl⟩ := h
  cases d <;> simp [manhattanP, manhattan_distance, Direction.value]

/-- Conversely, Manhattan distance one means some direction leads there. -/
theorem manhattan_stepOK {p q : Int × Int} (h : manhattanP p q = 1) : stepOK p q := by
  unfold manhattanP manhattan_distance at h
  unfold stepOK Direction.get_all
  rcases p with ⟨px, py⟩
  rcases q with ⟨qx, qy⟩
  simp only at h
  by_cases hx : px = qx
  · subst hx
    have hy : py - qy = 1 ∨ qy - py = 1 := by omega
    rcases hy with hy | hy
    · exact ⟨Direction.UP, by simp,
        by simp only [Direction.value, Prod.mk.injEq]; exact ⟨by omega, by omega⟩⟩
    · exact ⟨Direction.DOWN, by simp,
        by simp only [Direction.value, Prod.mk.injEq]; exact ⟨by omega, by omega⟩⟩
  · have hxd : px - qx = 1 ∨ qx - px = 1 := by
      have := Int.natAbs_pos.mpr (sub_ne_zero.mpr hx)
      omega
    rcases hxd with hxd | hxd
    · refine ⟨Direction.LEFT, by simp, ?_⟩
      simp only [Direction.value, Prod.mk.injEq]
      refine ⟨by omega, ?_⟩
      have : (py - qy).natAbs = 0 := by omega
      omega
    · refine ⟨Direction.RIGHT, by simp, ?_⟩
      simp only [Direction.value, Prod.mk.injEq]
      refine ⟨by omega, ?_⟩
      have : (py - qy).natAbs = 0 := by omega
      omega

/-- The waypoint-level invariant maintained by the refiner: consecutive
waypoints one orthogonal step apart, every non-start waypoint enterable at its
time-indexed step. -/
def SAPathOK (g : Grid) (st : Int) (π : List (Int × Int)) : Prop :=
  PathSteps π ∧ PathValid g st π

/-- The seed of the refiner satisfies the invariant: an A* node's path does. -/
theorem astar_seed_SAPathOK (g : Grid) (fuel : Nat) (sx sy gx gy st : Int)
    (n : Node) (h : AStarPlanner.plan g fuel sx sy gx gy st = some n) :
    SAPathOK g st n.get_path := by
  obtain ⟨⟨hfeas, -⟩, -, -⟩ := astar_plan_nodeOK g fuel sx sy gx gy st n h
  obtain ⟨-, hsteps, hvalid⟩ := hfeas.toFeasiblePath
  exact ⟨fun i hi => stepOK_manhattan (hsteps i hi), hvalid⟩

/-- What a successful alternative search guarantees: the replacement waypoint
is one direction-step from `prev`, enterable at the perturbed index's time,
and one orthogonal step from `nxt`. -/
theorem sa_find_alt_spec (g : Grid) (st : Int) (mi : Nat) (prev nxt : Int × Int) :
    ∀ (dirs : List Direction) (alt : Int × Int),
      sa_find_alt g st mi prev nxt dirs = some alt →
      (∃ d ∈ dirs, alt = (prev.1 + d.value.1, prev.2 + d.value.2)) ∧
        g.is_valid alt.1 alt.2 ((mi : Int) + st) = true ∧ manhattanP alt nxt = 1 := by
  intro dirs
  induction dirs with
  | nil =>
    intro alt h
    exact absurd h (by simp [sa_find_alt])
  | cons d rest ih =>
    intro alt h
    rw [sa_find_alt] at h
    by_cases h1 : ((prev.1 + d.value.1, prev.2 + d.value.2) ≠ prev ∧
        (prev.1 + d.value.1, prev.2 + d.value.2) ≠ nxt)
    · rw [if_pos h1] at h
      by_cases h2 : g.is_valid (prev.1 + d.value.1) (prev.2 + d.value.2)
          ((mi : Int) + st) = true
      · rw [if_pos h2] at h
        by_cases h3 : (manhattanP (prev.1 + d.value.1, prev.2 + d.value.2) nxt
            == 1) = true
        · rw [if_pos h3] at h
          have halt : alt = (prev.1 + d.value.1, prev.2 + d.value.2) :=
            (Option.some_injective _ h).symm
          subst halt
          exact ⟨⟨d, List.mem_cons_self _ _, rfl⟩, h2, by simpa using h3⟩
        · rw [if_neg h3] at h
          obtain ⟨⟨dd, hdd, hform⟩, hv, hm⟩ := ih alt h
          exact ⟨⟨dd, List.mem_cons_of_mem _ hdd, hform⟩, hv, hm⟩
      · rw [if_neg h2] at h
        obtain ⟨⟨dd, hdd, hform⟩, hv, hm⟩ := ih alt h
        exact ⟨⟨dd, List.mem_cons_of_mem _ hdd, hform⟩, hv, hm⟩
    · rw [if_neg h1] at h
      obtain ⟨⟨dd, hdd, hform⟩, hv, hm⟩ := ih alt h
      exact ⟨⟨dd, List.mem_cons_of_mem _ hdd, hform⟩, hv, hm⟩

/-- If some direction in the list qualifies, the alternative search succeeds. -/
theorem sa_find_alt_isSome (g : Grid) (st : Int) (mi : Nat) (prev nxt : Int × Int) :
    ∀ dirs : List Direction,
      (∃ d ∈ dirs, (prev.1 + d.value.1, prev.2 + d.value.2) ≠ prev ∧
        (prev.1 + d.value.1, prev.2 + d.value.2) ≠ nxt ∧
        g.is_valid (prev.1 + d.value.1) (prev.2 + d.value.2) ((mi : Int) + st) = true ∧
        manhattanP (prev.1 + d.value.1, prev.2 + d.value.2) nxt = 1) →
      (sa_find_alt g st mi prev nxt dirs).isSome = true := by
  intro dirs
  induction dirs with
  | nil =>
    intro h
    obtain ⟨d, hd, -⟩ := h
    exact absurd hd (by simp)
  | cons d0 rest ih =>
    intro h
    rw [sa_find_alt]
    by_cases h1 : ((prev.1 + d0.value.1, prev.2 + d0.value.2) ≠ prev ∧
        (prev.1 + d0.value.1, prev.2 + d0.value.2) ≠ nxt)
    · rw [if_pos h1]
      by_cases h2 : g.is_valid (prev.1 + d0.value.1) (prev.2 + d0.value.2)
          ((mi : Int) + st) = true
      · rw [if_pos h2]
        by_cases h3 : (manhattanP (prev.1 + d0.value.1, prev.2 + d0.value.2) nxt
            == 1) = true
        · rw [if_pos h3]
          rfl
        · rw [if_neg h3]
          apply ih
          obtain ⟨d, hd, hq⟩ := h
          rcases List.mem_cons.mp hd with rfl | hdrest
          · exact absurd (by simpa using hq.2.2.2) h3
          · exact ⟨d, hdrest, hq⟩
      · rw [if_neg h2]
        apply ih
        obtain ⟨d, hd, hq⟩ := h
        rcases List.mem_cons.mp hd with rfl | hdrest
        · exact absurd hq.2.2.1 h2
        · exact ⟨d, hdrest, hq⟩
    · rw [if_neg h1]
      apply ih
      obtain ⟨d, hd, hq⟩ := h
      rcases List.mem_cons.mp hd with rfl | hdrest
      · exact absurd ⟨hq.1, hq.2.1⟩ h1
      · exact ⟨d, hdrest, hq⟩

/-- A successful re-validation walk certifies enterability of every walked
waypoint at its time-indexed step. -/
theorem sa_walk_valid (g : Grid) (st : Int) :
    ∀ (l : List (Int × Int)) (j : Nat) (acc c : Nat),
      sa_walk g st j l acc = some c →
      ∀ i < l.length,
        g.is_valid (l.getD i (0, 0)).1 (l.getD i (0, 0)).2
          ((j : Int) + st + (i : Int)) = true := by
  intro l
  induction l with
  | nil =>
    intro j acc c _ i hi
    exact absurd hi (by simp)
  | cons p rest ih =>
    intro j acc c h i hi
    rw [sa_walk] at h
    by_cases hv : g.is_valid p.1 p.2 ((j : Int) + st) = true
    · rw [if_pos hv] at h
      cases i with
      | zero => simpa using hv
      | succ k =>
        have hk : k < rest.length := by simpa using hi
        have := ih (j + 1) _ c h k hk
        have harith : ((j + 1 : Nat) : Int) + st + (k : Int) =
            (j : Int) + st + ((k + 1 : Nat) : Int) := by push_cast; omega
        rw [harith] at this
        simpa using this
    · rw [if_neg hv] at h
      exact absurd h (by simp)

/-- `getD` on the tail shifts the index by one. -/
theorem tail_getD (l : List (Int × Int)) (k : Nat) (d : Int × Int)
    (h : l ≠ []) : l.tail.getD k d = l.getD (k + 1) d := by
  cases l with
  | nil => exact absurd rfl h
  | cons p rest => rfl

/-- Stepping one direction from a point covers Manhattan distance one. -/
theorem manhattan_dir_step (p : Int × Int) (d : Direction) :
    manhattanP p (p.1 + d.value.1, p.2 + d.value.2) = 1 := by
  cases d <;> (simp only [manhattanP, manhattan_distance, Direction.value]; omega)

/-- One annealing iteration preserves the waypoint invariant and the path
length. -/
theorem sa_iter_invariant (g : Grid) (cr : ℚ) (st : Int) (c : SAChoice)
    (s : SAState) (hok : SAPathOK g st s.current_path)
    (hlen : 3 ≤ s.current_path.length) :
    SAPathOK g st (sa_iter g cr st c s).current_path ∧
      (sa_iter g cr st c s).current_path.length = s.current_path.length := by
  obtain ⟨hsteps, hvalid⟩ := hok
  have hmibound := Nat.mod_lt c.idx (show 0 < s.current_path.length - 2 by omega)
  simp only [sa_iter]
  set mi := 1 + c.idx % (s.current_path.length - 2) with hmi
  have hmi1 : 1 ≤ mi := by omega
  have hmi2 : mi ≤ s.current_path.length - 2 := by omega
  set prev := s.current_path.getD (mi - 1) (0, 0) with hprev
  set nxt := s.current_path.getD (mi + 1) (0, 0) with hnxt
  cases halt : sa_find_alt g st mi prev nxt c.dirs with
  | none =>
    dsimp only
    exact ⟨⟨hsteps, hvalid⟩, rfl⟩
  | some alt =>
    dsimp only
    obtain ⟨⟨d, hd, haltform⟩, haltvalid, haltman⟩ :=
      sa_find_alt_spec g st mi prev nxt c.dirs alt halt
    cases hwalk : sa_walk g st 1 (s.current_path.set mi alt).tail 0 with
    | none =>
      dsimp only
      exact ⟨⟨hsteps, hvalid⟩, rfl⟩
    | some nc =>
      dsimp only
      have hsetlen : (s.current_path.set mi alt).length = s.current_path.length :=
        List.length_set ..
      have hsetne : s.current_path.set mi alt ≠ [] := by
        intro hc
        have h0 := congrArg List.length hc
        rw [List.length_set] at h0
        simp only [List.length_nil] at h0
        omega
      have hnewvalid : PathValid g st (s.current_path.set mi alt) := by
        intro i hilen hine
        obtain ⟨k, rfl⟩ : ∃ k, i = k + 1 := ⟨i - 1, by omega⟩
        have hk : k < (s.current_path.set mi alt).tail.length := by
          rw [List.length_tail, hsetlen]
          rw [hsetlen] at hilen
          omega
        have := sa_walk_valid g st _ 1 0 nc hwalk k hk
        rw [tail_getD _ _ _ hsetne] at this
        have harith : ((1 : Nat) : Int) + st + (k : Int) = st + ((k + 1 : Nat) : Int) := by
          push_cast; omega
        rw [harith] at this
        exact this
      have hnewsteps : PathSteps (s.current_path.set mi alt) := by
        intro i hilen
        rw [hsetlen] at hilen
        by_cases hieq : i = mi - 1
        · subst hieq
          have hm : mi - 1 + 1 = mi := by omega
          rw [getD_set_ne _ _ _ _ _ (by omega), hm, getD_set_eq _ _ _ _ (by omega)]
          rw [← hprev, haltform]
          exact manhattan_dir_step prev d
        · by_cases hieq2 : i = mi
          · subst hieq2
            rw [getD_set_eq _ _ _ _ (by omega), getD_set_ne _ _ _ _ _ (by omega)]
            rw [← hnxt]
            exact haltman
          · rw [getD_set_ne _ _ _ _ _ (by omega), getD_set_ne _ _ _ _ _ (by omega)]
            exact hsteps i hilen
      by_cases hcmp : nc < s.current_cost
      · rw [if_pos hcmp]
        exact ⟨⟨hnewsteps, hnewvalid⟩, hsetlen⟩
      · rw [if_neg hcmp]
        by_cases hacc : c.accept = true
        · rw [if_pos hacc]
          exact ⟨⟨hnewsteps, hnewvalid⟩, hsetlen⟩
        · rw [if_neg hacc]
          exact ⟨⟨hsteps, hvalid⟩, rfl⟩

/-- The whole annealing loop preserves the waypoint invariant. -/
theorem sa_loop_invariant (g : Grid) (cr : ℚ) (st : Int) :
    ∀ (choices : List SAChoice) (s : SAState),
      SAPathOK g st s.current_path →
      SAPathOK g st (sa_loop g cr st choices s).current_path := by
  intro choices
  induction choices with
  | nil =>
    intro s hok
    exact hok
  | cons c cs ih =>
    intro s hok
    rw [sa_loop]
    by_cases hlen : s.current_path.length ≤ 2
    · rw [if_pos hlen]
      exact hok
    · rw [if_neg hlen]
      exact ih _ (sa_iter_invariant g cr st c s hok (by omega)).1

/-- The path reconstructed by the final node-chain build is exactly the
retained waypoint list (appended to the prefix already folded in). -/
theorem sa_chain_fold_path (g : Grid) (st : Int) :
    ∀ (l : List (Int × Int)) (i total : Nat) (par : Option Node)
      (pre : List (Int × Int)),
      (par = none → pre = []) →
      (∀ m : Node, par = some m → m.get_path = pre) →
      ∀ node : Node, sa_chain_fold g st l i total par = some node →
        node.get_path = pre ++ l := by
  intro l
  induction l with
  | nil =>
    intro i total par pre h1 h2 node h
    simp only [sa_chain_fold] at h
    rw [List.append_nil]
    exact h2 node h
  | cons p rest ih =>
    intro i total par pre h1 h2 node h
    simp only [sa_chain_fold] at h
    cases hp : par with
    | none =>
      rw [hp] at h
      dsimp only at h
      have hpre : pre = [] := h1 hp
      subst hpre
      have := ih (i + 1) _ (some (Node.root p.1 p.2
          (if 0 < i then total + g.get_cost p.1 p.2 else total) ((i : Int) + st)))
        [p] (by intro hc; cases hc) ?_ node h
      · simpa using this
      · intro m hm
        have hm2 := Option.some_injective _ hm
        rw [← hm2]
        show [(p.1, p.2)] = [p]
        simp
    | some q =>
      rw [hp] at h
      dsimp only at h
      have := ih (i + 1) _ (some (Node.child p.1 p.2
          (if 0 < i then total + g.get_cost p.1 p.2 else total) ((i : Int) + st) q))
        (pre ++ [p]) (by intro hc; cases hc) ?_ node h
      · simpa using this
      · intro m hm
        have hm2 := Option.some_injective _ hm
        rw [← hm2]
        show q.get_path ++ [(p.1, p.2)] = pre ++ [p]
        rw [h2 q hp]

section Claim5

/-- C5: whenever `SimulatedAnnealingPlanner.plan` returns a node chain — for
every grid, configuration, fuel, start/goal, start time and every sequence of
random draws — every pair of consecutive waypoints of the reconstructed path
is exactly one orthogonal step apart, and every non-start waypoint at index
`i` passes the grid's enterability check at time `start_time + i`. The A*
seed satisfies the invariant, each accepted perturbation re-validates every
waypoint and preserves adjacency by construction, and the final chain build
returns the retained waypoint list unchanged. -/
theorem sa_returned_path_well_formed (g : Grid) (mits : Nat) (it cr : ℚ)
    (fuel : Nat) (choices : List SAChoice) (sx sy gx gy st : Int) (n : Node)
    (h : (SimulatedAnnealingPlanner.init g mits it cr).plan fuel choices
      sx sy gx gy st = some n) :
    PathSteps n.get_path ∧ PathValid g st n.get_path := by
  simp only [SimulatedAnnealingPlanner.plan, SimulatedAnnealingPlanner.init] at h
  cases hseed : AStarPlanner.plan g fuel sx sy gx gy st with
  | none =>
    rw [hseed] at h
    exact absurd h (by simp)
  | some seed =>
    rw [hseed] at h
    dsimp only at h
    have hseedok : SAPathOK g st seed.get_path :=
      astar_seed_SAPathOK g fuel sx sy gx gy st seed hseed
    have hloopok : SAPathOK g st
        (sa_loop g cr st (choices.take mits)
          { current_path := seed.get_path, current_cost := seed.cost,
            temperature := it }).current_path :=
      sa_loop_invariant g cr st (choices.take mits) _ hseedok
    by_cases hempty : (sa_loop g cr st (choices.take mits)
        { current_path := seed.get_path, current_cost := seed.cost,
          temperature := it }).current_path.isEmpty = true
    · rw [if_pos hempty] at h
      exact absurd h (by simp)
    · rw [if_neg hempty] at h
      have hpath := sa_chain_fold_path g st _ 0 0 none [] (fun _ => rfl)
        (by intro m hm; cases hm) n h
      rw [List.nil_append] at hpath
      rw [hpath]
      exact hloopok

/-- Witness for C5: a concrete run on the grass corridor with one oracle
choice. -/
theorem sa_returned_path_well_formed_witness :
    PathSteps (Node.child 2 0 4 2 (Node.child 1 0 3 1
        (Node.root 0 0 0 0))).get_path ∧
      PathValid grassGrid 0 (Node.child 2 0 4 2 (Node.child 1 0 3 1
        (Node.root 0 0 0 0))).get_path :=
  sa_returned_path_well_formed grassGrid 3 100 (19 / 20) 20
    [⟨0, Direction.get_all, false⟩] 0 0 2 0 0
    (Node.child 2 0 4 2 (Node.child 1 0 3 1 (Node.root 0 0 0 0))) (by decide)

end Claim5

section Claim6

/-- C6: in `SimulatedAnnealingPlanner.plan`, every iteration of the annealing
loop multiplies the temperature by the cooling factor, whether or not the
path actually changes. The hypotheses are exactly the facts that hold for
every state the loop can reach inside `plan` (established by
`astar_seed_SAPathOK`, `sa_iter_invariant` and the loop's length guard, with
`c.dirs` a shuffle of the four directions): under them the alternative search
always succeeds — the direction from the preceding waypoint to the current
one always qualifies, since the current waypoint is distinct from both
neighbours, enterable at its time step, and one step from the next waypoint —
so the source's `temperature *= self.cooling_rate`, although syntactically
guarded by `if found_alternative:`, fires on every iteration. -/
theorem sa_temperature_cooled_each_iteration (g : Grid) (cr : ℚ) (st : Int)
    (c : SAChoice) (s : SAState) (hok : SAPathOK g st s.current_path)
    (hlen : 3 ≤ s.current_path.length)
    (hdirs : ∀ d : Direction, d ∈ c.dirs) :
    (sa_iter g cr st c s).temperature = s.temperature * cr := by
  obtain ⟨hsteps, hvalid⟩ := hok
  have hmibound := Nat.mod_lt c.idx (show 0 < s.current_path.length - 2 by omega)
  simp only [sa_iter]
  set mi := 1 + c.idx % (s.current_path.length - 2) with hmi
  have hmi1 : 1 ≤ mi := by omega
  have hmi2 : mi ≤ s.current_path.length - 2 := by omega
  set prev := s.current_path.getD (mi - 1) (0, 0) with hprev
  set nxt := s.current_path.getD (mi + 1) (0, 0) with hnxt
  set cur := s.current_path.getD mi (0, 0) with hcur
  have hstep1 : manhattanP prev cur = 1 := by
    have := hsteps (mi - 1) (by omega)
    rw [show mi - 1 + 1 = mi by omega] at this
    exact this
  have hstep2 : manhattanP cur nxt = 1 := by
    have := hsteps mi (by omega)
    exact this
  have hcurvalid : g.is_valid cur.1 cur.2 ((mi : Int) + st) = true := by
    have := hvalid mi (by omega) (by omega)
    rw [Int.add_comm] at this
    exact this
  obtain ⟨d, hdall, hd⟩ := manhattan_stepOK hstep1
  have hqual : ∃ dd ∈ c.dirs, (prev.1 + dd.value.1, prev.2 + dd.value.2) ≠ prev ∧
      (prev.1 + dd.value.1, prev.2 + dd.value.2) ≠ nxt ∧
      g.is_valid (prev.1 + dd.value.1) (prev.2 + dd.value.2)
        ((mi : Int) + st) = true ∧
      manhattanP (prev.1 + dd.value.1, prev.2 + dd.value.2) nxt = 1 := by
    refine ⟨d, hdirs d, ?_, ?_, ?_, ?_⟩
    · rw [← hd]
      intro hc
      rw [hc] at hstep1
      simp [manhattanP, manhattan_distance] at hstep1
    · rw [← hd]
      intro hc
      rw [hc] at hstep2
      simp [manhattanP, manhattan_distance] at hstep2
    · rw [hd] at hcurvalid
      simpa using hcurvalid
    · rw [← hd]
      exact hstep2
  have hsome := sa_find_alt_isSome g st mi prev nxt c.dirs hqual
  cases halt : sa_find_alt g st mi prev nxt c.dirs with
  | none =>
    rw [halt] at hsome
    exact absurd hsome (by simp)
  | some alt =>
    dsimp only
    cases hwalk : sa_walk g st 1 (s.current_path.set mi alt).tail 0 with
    | none => rfl
    | some nc =>
      dsimp only
      by_cases hcmp : nc < s.current_cost
      · rw [if_pos hcmp]
      · rw [if_neg hcmp]
        by_cases hacc : c.accept = true
        · rw [if_pos hacc]
        · rw [if_neg hacc]

/-- Witness for C6 on the grass corridor at temperature 100 with cooling
19/20. -/
theorem sa_temperature_cooled_each_iteration_witness :
    (sa_iter grassGrid (19 / 20) 0 ⟨0, Direction.get_all, false⟩
      ⟨[(0, 0), (1, 0), (2, 0)], 4, 100⟩).temperature = 100 * (19 / 20) :=
  sa_temperature_cooled_each_iteration grassGrid (19 / 20) 0
    ⟨0, Direction.get_all, false⟩ ⟨[(0, 0), (1, 0), (2, 0)], 4, 100⟩
    ⟨by decide, by decide⟩ (by decide)
    (by intro d; cases d <;> simp [Direction.get_all])

end Claim6

/-- A cell that passes `is_valid` lies inside the terrain array's bounds. -/
theorem is_valid_bounds {g : Grid} {x y t : Int} (h : g.is_valid x y t = true) :
    (0 ≤ x && x < g.width && 0 ≤ y && y < g.height) = true := by
  unfold Grid.is_valid at h
  by_cases hb : (0 ≤ x && x < g.width && 0 ≤ y && y < g.height) = true
  · exact hb
  · have hb2 : (0 ≤ x && x < g.width && 0 ≤ y && y < g.height) = false :=
      Bool.eq_false_iff.mpr hb
    rw [hb2] at h
    simp at h

/-- On a cell that passes `is_valid`, the checked terrain access succeeds and
agrees with the raw one. -/
theorem get_cost_checked_of_valid {g : Grid} {x y t : Int}
    (h : g.is_valid x y t = true) :
    g.get_cost_checked x y = some (g.get_cost x y) := by
  unfold Grid.get_cost_checked Grid.get_cost
  rw [if_pos (is_valid_bounds h)]

/-- The UCS successor loop with every terrain access checked: `none` would
mean an out-of-bounds `terrain[y, x]` access. -/
def ucs_stepC (g : Grid) (cur : Node) :
    List Direction → List Node × List (Int × Int × Int) →
      Option (List Node × List (Int × Int × Int))
  | [], acc => some acc
  | d :: rest, acc =>
    let new_x := cur.x + d.value.1
    let new_y := cur.y + d.value.2
    let new_time_step := cur.time_step + 1
    if g.is_valid new_x new_y new_time_step then
      match g.get_cost_checked new_x new_y with
      | none => none
      | some cell_cost =>
        let new_cost := cur.cost + cell_cost
        if !(acc.2.contains (new_x, new_y, new_time_step)) then
          ucs_stepC g cur rest
            (acc.1 ++ [Node.child new_x new_y new_cost new_time_step cur],
              (new_x, new_y, new_time_step) :: acc.2)
        else
          ucs_stepC g cur rest acc
    else
      ucs_stepC g cur rest acc

/-- The checked UCS successor loop never faults and agrees with the raw one:
every `get_cost` call is dominated by a successful `is_valid` check. -/
theorem ucs_stepC_eq (g : Grid) (cur : Node) :
    ∀ (dirs : List Direction) (acc : List Node × List (Int × Int × Int)),
      ucs_stepC g cur dirs acc = some (ucs_step g cur dirs acc) := by
  intro dirs
  induction dirs with
  | nil =>
    intro acc
    rfl
  | cons d rest ih =>
    intro acc
    rw [ucs_stepC, ucs_step]
    by_cases hval : g.is_valid (cur.x + d.value.1) (cur.y + d.value.2)
        (cur.time_step + 1) = true
    · rw [if_pos hval, if_pos hval, get_cost_checked_of_valid hval]
      dsimp only
      by_cases hfresh : (!(acc.2.contains (cur.x + d.value.1, cur.y + d.value.2,
          cur.time_step + 1))) = true
      · rw [if_pos hfresh, if_pos hfresh]
        exact ih _
      · rw [if_neg hfresh, if_neg hfresh]
        exact ih _
    · rw [if_neg hval, if_neg hval]
      exact ih _

/-- The UCS loop with every terrain access checked. -/
def ucs_loopC (g : Grid) (gx gy : Int) :
    Nat → List Node → List (Int × Int × Int) → Option (Option Node)
  | 0, _, _ => some none
  | fuel + 1, queue, visited =>
    match popMinNode queue with
    | none => some none
    | some pr =>
      if pr.1.x == gx && pr.1.y == gy then some (some pr.1)
      else
        match ucs_stepC g pr.1 Direction.get_all (pr.2, visited) with
        | none => none
        | some qv => ucs_loopC g gx gy fuel qv.1 qv.2

theorem ucs_loopC_eq (g : Grid) (gx gy : Int) :
    ∀ (fuel : Nat) (queue : List Node) (visited : List (Int × Int × Int)),
      ucs_loopC g gx gy fuel queue visited =
        some (ucs_loop g gx gy fuel queue visited) := by
  intro fuel
  induction fuel with
  | zero =>
    intro queue visited
    rfl
  | succ fuel ih =>
    intro queue visited
    rw [ucs_loopC, ucs_loop]
    cases hpop : popMinNode queue with
    | none => rfl
    | some pr =>
      dsimp only
      by_cases hgoal : (pr.1.x == gx && pr.1.y == gy) = true
      · rw [if_pos hgoal, if_pos hgoal]
      · rw [if_neg hgoal, if_neg hgoal, ucs_stepC_eq]
        exact ih _ _

/-- `UCSPlanner.plan` with every terrain access checked. -/
def UCSPlanner.planChecked (g : Grid) (fuel : Nat) (sx sy gx gy st : Int) :
    Option (Option Node) :=
  ucs_loopC g gx gy fuel [Node.root sx sy 0 st] [(sx, sy, st)]

/-- The A* successor loop with every terrain access checked. -/
def astar_stepC (g : Grid) (gx gy : Int) (cur : Node) :
    List Direction → List (Nat × Node) × List (Int × Int × Int) →
      Option (List (Nat × Node) × List (Int × Int × Int))
  | [], acc => some acc
  | d :: rest, acc =>
    let new_x := cur.x + d.value.1
    let new_y := cur.y + d.value.2
    let new_time_step := cur.time_step + 1
    if g.is_valid new_x new_y new_time_step then
      match g.get_cost_checked new_x new_y with
      | none => none
      | some cell_cost =>
        let new_cost := cur.cost + cell_cost
        let priority := new_cost + manhattan_distance new_x new_y gx gy
        if !(acc.2.contains (new_x, new_y, new_time_step)) then
          astar_stepC g gx gy cur rest
            (acc.1 ++ [(priority, Node.child new_x new_y new_cost new_time_step cur)],
              (new_x, new_y, new_time_step) :: acc.2)
        else
          astar_stepC g gx gy cur rest acc
    else
      astar_stepC g gx gy cur rest acc

theorem astar_stepC_eq (g : Grid) (gx gy : Int) (cur : Node) :
    ∀ (dirs : List Direction) (acc : List (Nat × Node) × List (Int × Int × Int)),
      astar_stepC g gx gy cur dirs acc = some (astar_step g gx gy cur dirs acc) := by
  intro dirs
  induction dirs with
  | nil =>
    intro acc
    rfl
  | cons d rest ih =>
    intro acc
    rw [astar_stepC, astar_step]
    by_cases hval : g.is_valid (cur.x + d.value.1) (cur.y + d.value.2)
        (cur.time_step + 1) = true
    · rw [if_pos hval, if_pos hval, get_cost_checked_of_valid hval]
      dsimp only
      by_cases hfresh : (!(acc.2.contains (cur.x + d.value.1, cur.y + d.value.2,
          cur.time_step + 1))) = true
      · rw [if_pos hfresh, if_pos hfresh]
        exact ih _
      · rw [if_neg hfresh, if_neg hfresh]
        exact ih _
    · rw [if_neg hval, if_neg hval]
      exact ih _

/-- The A* loop with every terrain access checked. -/
def astar_loopC (g : Grid) (gx gy : Int) :
    Nat → List (Nat × Node) → List (Int × Int × Int) → Option (Option Node)
  | 0, _, _ => some none
  | fuel + 1, queue, visited =>
    match popMinEntry queue with
    | none => some none
    | some pr =>
      if pr.1.2.x == gx && pr.1.2.y == gy then some (some pr.1.2)
      else
        match astar_stepC g gx gy pr.1.2 Direction.get_all (pr.2, visited) with
        | none => none
        | some qv => astar_loopC g gx gy fuel qv.1 qv.2

theorem astar_loopC_eq (g : Grid) (gx gy : Int) :
    ∀ (fuel : Nat) (queue : List (Nat × Node)) (visited : List (Int × Int × Int)),
      astar_loopC g gx gy fuel queue visited =
        some (astar_loop g gx gy fuel queue visited) := by
  intro fuel
  induction fuel with
  | zero =>
    intro queue visited
    rfl
  | succ fuel ih =>
    intro queue visited
    rw [astar_loopC, astar_loop]
    cases hpop : popMinEntry queue with
    | none => rfl
    | some pr =>
      dsimp only
      by_cases hgoal : (pr.1.2.x == gx && pr.1.2.y == gy) = true
      · rw [if_pos hgoal, if_pos hgoal]
      · rw [if_neg hgoal, if_neg hgoal, astar_stepC_eq]
        exact ih _ _

/-- `AStarPlanner.plan` with every terrain access checked. -/
def AStarPlanner.planChecked (g : Grid) (fuel : Nat) (sx sy gx gy st : Int) :
    Option (Option Node) :=
  astar_loopC g gx gy fuel
    [(manhattan_distance sx sy gx gy, Node.root sx sy 0 st)] [(sx, sy, st)]

/-- In-bounds predicate for the terrain array. -/
def inBounds (g : Grid) (p : Int × Int) : Bool :=
  0 ≤ p.1 && p.1 < g.width && 0 ≤ p.2 && p.2 < g.height

theorem is_valid_inBounds {g : Grid} {x y t : Int} (h : g.is_valid x y t = true) :
    inBounds g (x, y) = true :=
  is_valid_bounds h

theorem get_cost_checked_of_inBounds {g : Grid} {p : Int × Int}
    (h : inBounds g p = true) :
    g.get_cost_checked p.1 p.2 = some (g.get_cost p.1 p.2) := by
  unfold Grid.get_cost_checked Grid.get_cost
  unfold inBounds at h
  rw [if_pos h]

/-- The re-validation walk with every terrain access checked (`none` = the
raw numpy access would be out of bounds; `some none` = the walk found an
unenterable waypoint, the source's normal negative result). -/
def sa_walkC (g : Grid) (start_time : Int) :
    Nat → List (Int × Int) → Nat → Option (Option Nat)
  | _, [], acc => some (some acc)
  | j, p :: rest, acc =>
    if g.is_valid p.1 p.2 ((j : Int) + start_time) then
      match g.get_cost_checked p.1 p.2 with
      | none => none
      | some cc => sa_walkC g start_time (j + 1) rest (acc + cc)
    else some none

theorem sa_walkC_eq (g : Grid) (st : Int) :
    ∀ (l : List (Int × Int)) (j acc : Nat),
      sa_walkC g st j l acc = some (sa_walk g st j l acc) := by
  intro l
  induction l with
  | nil =>
    intro j acc
    rfl
  | cons p rest ih =>
    intro j acc
    rw [sa_walkC, sa_walk]
    by_cases hv : g.is_valid p.1 p.2 ((j : Int) + st) = true
    · rw [if_pos hv, if_pos hv, get_cost_checked_of_valid hv]
      exact ih _ _
    · rw [if_neg hv, if_neg hv]

/-- One annealing iteration with every terrain access checked. -/
def sa_iterC (g : Grid) (cooling_rate : ℚ) (start_time : Int) (c : SAChoice)
    (s : SAState) : Option SAState :=
  let modify_index := 1 + c.idx % (s.current_path.length - 2)
  let prev := s.current_path.getD (modify_index - 1) (0, 0)
  let nxt := s.current_path.getD (modify_index + 1) (0, 0)
  match sa_find_alt g start_time modify_index prev nxt c.dirs with
  | none => some s
  | some alt =>
    let new_path := s.current_path.set modify_index alt
    match sa_walkC g start_time 1 new_path.tail 0 with
    | none => none
    | some none => some { s with temperature := s.temperature * cooling_rate }
    | some (some new_cost) =>
      some
        (if new_cost < s.current_cost then
          { current_path := new_path, current_cost := new_cost,
            temperature := s.temperature * cooling_rate }
        else if c.accept then
          { current_path := new_path, current_cost := new_cost,
            temperature := s.temperature * cooling_rate }
        else { s with temperature := s.temperature * cooling_rate })

theorem sa_iterC_eq (g : Grid) (cr : ℚ) (st : Int) (c : SAChoice) (s : SAState) :
    sa_iterC g cr st c s = some (sa_iter g cr st c s) := by
  simp only [sa_iterC, sa_iter]
  cases halt : sa_find_alt g st (1 + c.idx % (s.current_path.length - 2))
      (s.current_path.getD (1 + c.idx % (s.current_path.length - 2) - 1) (0, 0))
      (s.current_path.getD (1 + c.idx % (s.current_path.length - 2) + 1) (0, 0))
      c.dirs with
  | none => rfl
  | some alt =>
    dsimp only
    rw [sa_walkC_eq]
    cases hwalk : sa_walk g st 1
        (s.current_path.set (1 + c.idx % (s.current_path.length - 2)) alt).tail 0 with
    | none => rfl
    | some nc => rfl

/-- The annealing loop with every terrain access checked. -/
def sa_loopC (g : Grid) (cooling_rate : ℚ) (start_time : Int) :
    List SAChoice → SAState → Option SAState
  | [], s => some s
  | c :: cs, s =>
    if s.current_path.length ≤ 2 then some s
    else
      match sa_iterC g cooling_rate start_time c s with
      | none => none
      | some s2 => sa_loopC g cooling_rate start_time cs s2

theorem sa_loopC_eq (g : Grid) (cr : ℚ) (st : Int) :
    ∀ (choices : List SAChoice) (s : SAState),
      sa_loopC g cr st choices s = some (sa_loop g cr st choices s) := by
  intro choices
  induction choices with
  | nil =>
    intro s
    rfl
  | cons c cs ih =>
    intro s
    rw [sa_loopC, sa_loop]
    by_cases hlen : s.current_path.length ≤ 2
    · rw [if_pos hlen, if_pos hlen]
    · rw [if_neg hlen, if_neg hlen, sa_iterC_eq]
      exact ih _

/-- The final node-chain build with every terrain access checked. -/
def sa_chain_foldC (g : Grid) (start_time : Int) :
    List (Int × Int) → Nat → Nat → Option Node → Option (Option Node)
  | [], _, _, parent => some parent
  | p :: rest, i, total, parent =>
    if 0 < i then
      match g.get_cost_checked p.1 p.2 with
      | none => none
      | some cc =>
        let total2 := total + cc
        let node :=
          match parent with
          | none => Node.root p.1 p.2 total2 ((i : Int) + start_time)
          | some par => Node.child p.1 p.2 total2 ((i : Int) + start_time) par
        sa_chain_foldC g start_time rest (i + 1) total2 (some node)
    else
      let node :=
        match parent with
        | none => Node.root p.1 p.2 total ((i : Int) + start_time)
        | some par => Node.child p.1 p.2 total ((i : Int) + start_time) par
      sa_chain_foldC g start_time rest (i + 1) total (some node)

theorem sa_chain_foldC_eq (g : Grid) (st : Int) :
    ∀ (l : List (Int × Int)) (i total : Nat) (par : Option Node),
      (∀ k, k < l.length → 0 < i + k → inBounds g (l.getD k (0, 0)) = true) →
      sa_chain_foldC g st l i total par = some (sa_chain_fold g st l i total par) := by
  intro l
  induction l with
  | nil =>
    intro i total par _
    rfl
  | cons p rest ih =>
    intro i total par hb
    simp only [sa_chain_foldC, sa_chain_fold]
    have hrest : ∀ k, k < rest.length → 0 < i + 1 + k →
        inBounds g (rest.getD k (0, 0)) = true := by
      intro k hk _
      have := hb (k + 1) (by simp; omega) (by omega)
      simpa using this
    by_cases hi : 0 < i
    · rw [if_pos hi, if_pos hi]
      have hb0 : inBounds g p = true := hb 0 (by simp) (by omega)
      rw [get_cost_checked_of_inBounds hb0]
      dsimp only
      exact ih _ _ _ hrest
    · rw [if_neg hi, if_neg hi]
      exact ih _ _ _ hrest

/-- `SimulatedAnnealingPlanner.plan` with every terrain access checked. -/
def SimulatedAnnealingPlanner.planChecked (sa : SimulatedAnnealingPlanner)
    (fuel : Nat) (choices : List SAChoice) (sx sy gx gy st : Int) :
    Option (Option Node) :=
  match AStarPlanner.planChecked sa.grid fuel sx sy gx gy st with
  | none => none
  | some none => some none
  | some (some node) =>
    let s0 : SAState :=
      { current_path := node.get_path, current_cost := node.cost,
        temperature := sa.initial_temp }
    match sa_loopC sa.grid sa.cooling_rate st (choices.take sa.max_iterations) s0 with
    | none => none
    | some s1 =>
      if s1.current_path.isEmpty then some none
      else sa_chain_foldC sa.grid st s1.current_path 0 0 none

/-- The checked simulated-annealing planner never faults and agrees with the
raw one: walk and perturbation accesses are guarded by `is_valid`, and the
final chain build only touches waypoints certified enterable by the loop
invariant. -/
theorem sa_planChecked_eq (g : Grid) (mits : Nat) (it cr : ℚ) (fuel : Nat)
    (choices : List SAChoice) (sx sy gx gy st : Int) :
    (SimulatedAnnealingPlanner.init g mits it cr).planChecked fuel choices
        sx sy gx gy st =
      some ((SimulatedAnnealingPlanner.init g mits it cr).plan fuel choices
        sx sy gx gy st) := by
  simp only [SimulatedAnnealingPlanner.planChecked, SimulatedAnnealingPlanner.plan,
    SimulatedAnnealingPlanner.init, AStarPlanner.planChecked, AStarPlanner.plan]
  rw [astar_loopC_eq]
  cases hseed : astar_loop g gx gy fuel
      [(manhattan_distance sx sy gx gy, Node.root sx sy 0 st)] [(sx, sy, st)] with
  | none => rfl
  | some seed =>
    dsimp only
    rw [sa_loopC_eq]
    dsimp only
    have hseedplan : AStarPlanner.plan g fuel sx sy gx gy st = some seed := hseed
    have hok : SAPathOK g st
        (sa_loop g cr st (choices.take mits)
          { current_path := seed.get_path, current_cost := seed.cost,
            temperature := it }).current_path :=
      sa_loop_invariant g cr st (choices.take mits) _
        (astar_seed_SAPathOK g fuel sx sy gx gy st seed hseedplan)
    by_cases hempty : (sa_loop g cr st (choices.take mits)
        { current_path := seed.get_path, current_cost := seed.cost,
          temperature := it }).current_path.isEmpty = true
    · rw [if_pos hempty, if_pos hempty]
    · rw [if_neg hempty, if_neg hempty]
      refine sa_chain_foldC_eq g st _ 0 0 none ?_
      intro k hk h0
      exact is_valid_inBounds (hok.2 k hk (by omega))

section Claim10

/-- C10: during planning, every terrain-array access made through
`Grid.get_cost` stays inside `[0, width) × [0, height)`: the checked variants
of the three `get_cost`-using planners — in which every terrain access is
replaced by `Grid.get_cost_checked`, which fails on any index the raw numpy
access would fault on or wrap around — never fail and compute exactly the raw
planners' results, for every grid, configuration, fuel, oracle and arguments.
UCS/A* access terrain only immediately after a successful `is_valid` check at
successor generation; the refiner's re-walk checks `is_valid` in the same
iteration before each access, and its final chain build touches only
waypoints of an already-validated path. (BFS performs no `get_cost` access at
all.) -/
theorem terrain_accesses_in_bounds (g : Grid) (fuel mits : Nat) (it cr : ℚ)
    (choices : List SAChoice) (sx sy gx gy st : Int) :
    UCSPlanner.planChecked g fuel sx sy gx gy st =
        some (UCSPlanner.plan g fuel sx sy gx gy st) ∧
      AStarPlanner.planChecked g fuel sx sy gx gy st =
        some (AStarPlanner.plan g fuel sx sy gx gy st) ∧
      (SimulatedAnnealingPlanner.init g mits it cr).planChecked fuel choices
          sx sy gx gy st =
        some ((SimulatedAnnealingPlanner.init g mits it cr).plan fuel choices
          sx sy gx gy st) :=
  ⟨ucs_loopC_eq g gx gy fuel _ _, astar_loopC_eq g gx gy fuel _ _,
    sa_planChecked_eq g mits it cr fuel choices sx sy gx gy st⟩

end Claim10

/-- State-passing reading of `Grid.is_valid`: the method body only reads
`self.width/height/grid/moving_obstacles`, so it returns the world model it
was given. -/
def Grid.is_validS (g : Grid) (x y time_step : Int) : Bool × Grid :=
  (g.is_valid x y time_step, g)

/-- State-passing reading of `Grid.get_cost`: a pure read of `self.terrain`. -/
def Grid.get_costS (g : Grid) (x y : Int) : Nat × Grid :=
  (g.get_cost x y, g)

/-- The BFS successor loop with the world model threaded through every grid
call. -/
def bfs_stepS (cur : Node) :
    List Direction → List Node × List (Int × Int × Int) → Grid →
      (List Node × List (Int × Int × Int)) × Grid
  | [], acc, g => (acc, g)
  | d :: rest, acc, g =>
    let vr := g.is_validS (cur.x + d.value.1) (cur.y + d.value.2) (cur.time_step + 1)
    if vr.1 && !(acc.2.contains (cur.x + d.value.1, cur.y + d.value.2,
        cur.time_step + 1)) then
      bfs_stepS cur rest
        (acc.1 ++ [Node.child (cur.x + d.value.1) (cur.y + d.value.2)
            (cur.cost + 1) (cur.time_step + 1) cur],
          (cur.x + d.value.1, cur.y + d.value.2, cur.time_step + 1) :: acc.2) vr.2
    else
      bfs_stepS cur rest acc vr.2

theorem bfs_stepS_eq (cur : Node) :
    ∀ (dirs : List Direction) (acc : List Node × List (Int × Int × Int)) (g : Grid),
      bfs_stepS cur dirs acc g = (bfs_step g cur dirs acc, g) := by
  intro dirs
  induction dirs with
  | nil =>
    intro acc g
    rfl
  | cons d rest ih =>
    intro acc g
    rw [bfs_stepS, bfs_step]
    simp only [Grid.is_validS]
    split
    · exact ih _ _
    · exact ih _ _

/-- The BFS loop with the world model threaded. -/
def bfs_loopS (gx gy : Int) :
    Nat → List Node → List (Int × Int × Int) → Grid → Option Node × Grid
  | 0, _, _, g => (none, g)
  | _ + 1, [], _, g => (none, g)
  | fuel + 1, cur :: rest, visited, g =>
    if cur.x == gx && cur.y == gy then (some cur, g)
    else
      let r := bfs_stepS cur Direction.get_all (rest, visited) g
      bfs_loopS gx gy fuel r.1.1 r.1.2 r.2

theorem bfs_loopS_eq (gx gy : Int) :
    ∀ (fuel : Nat) (queue : List Node) (visited : List (Int × Int × Int)) (g : Grid),
      bfs_loopS gx gy fuel queue visited g = (bfs_loop g gx gy fuel queue visited, g) := by
  intro fuel
  induction fuel with
  | zero =>
    intro queue visited g
    rfl
  | succ fuel ih =>
    intro queue visited g
    cases queue with
    | nil => rfl
    | cons cur rest =>
      rw [bfs_loopS, bfs_loop]
      split
      · rfl
      · rw [bfs_stepS_eq]
        exact ih _ _ _

/-- `BFSPlanner.plan` with the world model threaded in and out. -/
def BFSPlanner.planS (g : Grid) (fuel : Nat) (sx sy gx gy st : Int) :
    Option Node × Grid :=
  bfs_loopS gx gy fuel [Node.root sx sy 0 st] [(sx, sy, st)] g

/-- The UCS successor loop with the world model threaded. -/
def ucs_stepS (cur : Node) :
    List Direction → List Node × List (Int × Int × Int) → Grid →
      (List Node × List (Int × Int × Int)) × Grid
  | [], acc, g => (acc, g)
  | d :: rest, acc, g =>
    let vr := g.is_validS (cur.x + d.value.1) (cur.y + d.value.2) (cur.time_step + 1)
    if vr.1 then
      let cr := vr.2.get_costS (cur.x + d.value.1) (cur.y + d.value.2)
      if !(acc.2.contains (cur.x + d.value.1, cur.y + d.value.2,
          cur.time_step + 1)) then
        ucs_stepS cur rest
          (acc.1 ++ [Node.child (cur.x + d.value.1) (cur.y + d.value.2)
              (cur.cost + cr.1) (cur.time_step + 1) cur],
            (cur.x + d.value.1, cur.y + d.value.2, cur.time_step + 1) :: acc.2) cr.2
      else
        ucs_stepS cur rest acc cr.2
    else
      ucs_stepS cur rest acc vr.2

theorem ucs_stepS_eq (cur : Node) :
    ∀ (dirs : List Direction) (acc : List Node × List (Int × Int × Int)) (g : Grid),
      ucs_stepS cur dirs acc g = (ucs_step g cur dirs acc, g) := by
  intro dirs
  induction dirs with
  | nil =>
    intro acc g
    rfl
  | cons d rest ih =>
    intro acc g
    rw [ucs_stepS, ucs_step]
    simp only [Grid.is_validS, Grid.get_costS]
    split
    · split
      · exact ih _ _
      · exact ih _ _
    · exact ih _ _

/-- The UCS loop with the world model threaded. -/
def ucs_loopS (gx gy : Int) :
    Nat → List Node → List (Int × Int × Int) → Grid → Option Node × Grid
  | 0, _, _, g => (none, g)
  | fuel + 1, queue, visited, g =>
    match popMinNode queue with
    | none => (none, g)
    | some pr =>
      if pr.1.x == gx && pr.1.y == gy then (some pr.1, g)
      else
        let r := ucs_stepS pr.1 Direction.get_all (pr.2, visited) g
        ucs_loopS gx gy fuel r.1.1 r.1.2 r.2

theorem ucs_loopS_eq (gx gy : Int) :
    ∀ (fuel : Nat) (queue : List Node) (visited : List (Int × Int × Int)) (g : Grid),
      ucs_loopS gx gy fuel queue visited g = (ucs_loop g gx gy fuel queue visited, g) := by
  intro fuel
  induction fuel with
  | zero =>
    intro queue visited g
    rfl
  | succ fuel ih =>
    intro queue visited g
    rw [ucs_loopS, ucs_loop]
    cases popMinNode queue with
    | none => rfl
    | some pr =>
      dsimp only
      split
      · rfl
      · rw [ucs_stepS_eq]
        exact ih _ _ _

/-- `UCSPlanner.plan` with the world model threaded in and out. -/
def UCSPlanner.planS (g : Grid) (fuel : Nat) (sx sy gx gy st : Int) :
    Option Node × Grid :=
  ucs_loopS gx gy fuel [Node.root sx sy 0 st] [(sx, sy, st)] g

/-- The A* successor loop with the world model threaded. -/
def astar_stepS (gx gy : Int) (cur : Node) :
    List Direction → List (Nat × Node) × List (Int × Int × Int) → Grid →
      (List (Nat × Node) × List (Int × Int × Int)) × Grid
  | [], acc, g => (acc, g)
  | d :: rest, acc, g =>
    let vr := g.is_validS (cur.x + d.value.1) (cur.y + d.value.2) (cur.time_step + 1)
    if vr.1 then
      let cr := vr.2.get_costS (cur.x + d.value.1) (cur.y + d.value.2)
      let new_cost := cur.cost + cr.1
      let priority := new_cost + manhattan_distance (cur.x + d.value.1)
        (cur.y + d.value.2) gx gy
      if !(acc.2.contains (cur.x + d.value.1, cur.y + d.value.2,
          cur.time_step + 1)) then
        astar_stepS gx gy cur rest
          (acc.1 ++ [(priority, Node.child (cur.x + d.value.1) (cur.y + d.value.2)
              new_cost (cur.time_step + 1) cur)],
            (cur.x + d.value.1, cur.y + d.value.2, cur.time_step + 1) :: acc.2) cr.2
      else
        astar_stepS gx gy cur rest acc cr.2
    else
      astar_stepS gx gy cur rest acc vr.2

theorem astar_stepS_eq (gx gy : Int) (cur : Node) :
    ∀ (dirs : List Direction) (acc : List (Nat × Node) × List (Int × Int × Int))
      (g : Grid),
      astar_stepS gx gy cur dirs acc g = (astar_step g gx gy cur dirs acc, g) := by
  intro dirs
  induction dirs with
  | nil =>
    intro acc g
    rfl
  | cons d rest ih =>
    intro acc g
    rw [astar_stepS, astar_step]
    simp only [Grid.is_validS, Grid.get_costS]
    split
    · split
      · exact ih _ _
      · exact ih _ _
    · exact ih _ _

/-- The A* loop with the world model threaded. -/
def astar_loopS (gx gy : Int) :
    Nat → List (Nat × Node) → List (Int × Int × Int) → Grid → Option Node × Grid
  | 0, _, _, g => (none, g)
  | fuel + 1, queue, visited, g =>
    match popMinEntry queue with
    | none => (none, g)
    | some pr =>
      if pr.1.2.x == gx && pr.1.2.y == gy then (some pr.1.2, g)
      else
        let r := astar_stepS gx gy pr.1.2 Direction.get_all (pr.2, visited) g
        astar_loopS gx gy fuel r.1.1 r.1.2 r.2

theorem astar_loopS_eq (gx gy : Int) :
    ∀ (fuel : Nat) (queue : List (Nat × Node)) (visited : List (Int × Int × Int))
      (g : Grid),
      astar_loopS gx gy fuel queue visited g =
        (astar_loop g gx gy fuel queue visited, g) := by
  intro fuel
  induction fuel with
  | zero =>
    intro queue visited g
    rfl
  | succ fuel ih =>
    intro queue visited g
    rw [astar_loopS, astar_loop]
    cases popMinEntry queue with
    | none => rfl
    | some pr =>
      dsimp only
      split
      · rfl
      · rw [astar_stepS_eq]
        exact ih _ _ _

/-- `AStarPlanner.plan` with the world model threaded in and out. -/
def AStarPlanner.planS (g : Grid) (fuel : Nat) (sx sy gx gy st : Int) :
    Option Node × Grid :=
  astar_loopS gx gy fuel
    [(manhattan_distance sx sy gx gy, Node.root sx sy 0 st)] [(sx, sy, st)] g

/-- The alternative search with the world model threaded. -/
def sa_find_altS (start_time : Int) (modify_index : Nat) (prev nxt : Int × Int) :
    List Direction → Grid → Option (Int × Int) × Grid
  | [], g => (none, g)
  | d :: rest, g =>
    let alt := (prev.1 + d.value.1, prev.2 + d.value.2)
    if alt ≠ prev ∧ alt ≠ nxt then
      let vr := g.is_validS alt.1 alt.2 ((modify_index : Int) + start_time)
      if vr.1 then
        if manhattanP alt nxt == 1 then (some alt, vr.2)
        else sa_find_altS start_time modify_index prev nxt rest vr.2
      else sa_find_altS start_time modify_index prev nxt rest vr.2
    else sa_find_altS start_time modify_index prev nxt rest g

theorem sa_find_altS_eq (st : Int) (mi : Nat) (prev nxt : Int × Int) :
    ∀ (dirs : List Direction) (g : Grid),
      sa_find_altS st mi prev nxt dirs g =
        (sa_find_alt g st mi prev nxt dirs, g) := by
  intro dirs
  induction dirs with
  | nil =>
    intro g
    rfl
  | cons d rest ih =>
    intro g
    rw [sa_find_altS, sa_find_alt]
    simp only [Grid.is_validS]
    split
    · split
      · split
        · rfl
        · exact ih _
      · exact ih _
    · exact ih _

/-- The re-validation walk with the world model threaded. -/
def sa_walkS (start_time : Int) :
    Nat → List (Int × Int) → Nat → Grid → Option Nat × Grid
  | _, [], acc, g => (some acc, g)
  | j, p :: rest, acc, g =>
    let vr := g.is_validS p.1 p.2 ((j : Int) + start_time)
    if vr.1 then
      let cr := vr.2.get_costS p.1 p.2
      sa_walkS start_time (j + 1) rest (acc + cr.1) cr.2
    else (none, vr.2)

theorem sa_walkS_eq (st : Int) :
    ∀ (l : List (Int × Int)) (j acc : Nat) (g : Grid),
      sa_walkS st j l acc g = (sa_walk g st j l acc, g) := by
  intro l
  induction l with
  | nil =>
    intro j acc g
    rfl
  | cons p rest ih =>
    intro j acc g
    rw [sa_walkS, sa_walk]
    simp only [Grid.is_validS, Grid.get_costS]
    split
    · exact ih _ _ _
    · rfl

/-- One annealing iteration with the world model threaded. -/
def sa_iterS (cooling_rate : ℚ) (start_time : Int) (c : SAChoice) (s : SAState)
    (g : Grid) : SAState × Grid :=
  let modify_index := 1 + c.idx % (s.current_path.length - 2)
  let prev := s.current_path.getD (modify_index - 1) (0, 0)
  let nxt := s.current_path.getD (modify_index + 1) (0, 0)
  let ar := sa_find_altS start_time modify_index prev nxt c.dirs g
  match ar.1 with
  | none => (s, ar.2)
  | some alt =>
    let new_path := s.current_path.set modify_index alt
    let wr := sa_walkS start_time 1 new_path.tail 0 ar.2
    match wr.1 with
    | none => ({ s with temperature := s.temperature * cooling_rate }, wr.2)
    | some new_cost =>
      let s2 : SAState :=
        if new_cost < s.current_cost then
          { current_path := new_path, current_cost := new_cost,
            temperature := s.temperature * cooling_rate }
        else if c.accept then
          { current_path := new_path, current_cost := new_cost,
            temperature := s.temperature * cooling_rate }
        else { s with temperature := s.temperature * cooling_rate }
      (s2, wr.2)

theorem sa_iterS_eq (cr : ℚ) (st : Int) (c : SAChoice) (s : SAState) (g : Grid) :
    sa_iterS cr st c s g = (sa_iter g cr st c s, g) := by
  simp only [sa_iterS, sa_iter, sa_find_altS_eq, sa_walkS_eq]
  cases sa_find_alt g st (1 + c.idx % (s.current_path.length - 2))
      (s.current_path.getD (1 + c.idx % (s.current_path.length - 2) - 1) (0, 0))
      (s.current_path.getD (1 + c.idx % (s.current_path.length - 2) + 1) (0, 0))
      c.dirs with
  | none => rfl
  | some alt =>
    dsimp only
    cases sa_walk g st 1
        (s.current_path.set (1 + c.idx % (s.current_path.length - 2)) alt).tail 0 with
    | none => rfl
    | some nc => rfl

/-- The annealing loop with the world model threaded. -/
def sa_loopS (cooling_rate : ℚ) (start_time : Int) :
    List SAChoice → SAState → Grid → SAState × Grid
  | [], s, g => (s, g)
  | c :: cs, s, g =>
    if s.current_path.length ≤ 2 then (s, g)
    else
      let r := sa_iterS cooling_rate start_time c s g
      sa_loopS cooling_rate start_time cs r.1 r.2

theorem sa_loopS_eq (cr : ℚ) (st : Int) :
    ∀ (choices : List SAChoice) (s : SAState) (g : Grid),
      sa_loopS cr st choices s g = (sa_loop g cr st choices s, g) := by
  intro choices
  induction choices with
  | nil =>
    intro s g
    rfl
  | cons c cs ih =>
    intro s g
    rw [sa_loopS, sa_loop]
    split
    · rfl
    · rw [sa_iterS_eq]
      exact ih _ _

/-- The final node-chain build with the world model threaded. -/
def sa_chain_foldS (start_time : Int) :
    List (Int × Int) → Nat → Nat → Option Node → Grid → Option Node × Grid
  | [], _, _, parent, g => (parent, g)
  | p :: rest, i, total, parent, g =>
    let t := (i : Int) + start_time
    if 0 < i then
      let cr := g.get_costS p.1 p.2
      let total2 := total + cr.1
      let node :=
        match parent with
        | none => Node.root p.1 p.2 total2 t
        | some par => Node.child p.1 p.2 total2 t par
      sa_chain_foldS start_time rest (i + 1) total2 (some node) cr.2
    else
      let node :=
        match parent with
        | none => Node.root p.1 p.2 total t
        | some par => Node.child p.1 p.2 total t par
      sa_chain_foldS start_time rest (i + 1) total (some node) g

theorem sa_chain_foldS_eq (st : Int) :
    ∀ (l : List (Int × Int)) (i total : Nat) (par : Option Node) (g : Grid),
      sa_chain_foldS st l i total par g = (sa_chain_fold g st l i total par, g) := by
  intro l
  induction l with
  | nil =>
    intro i total par g
    rfl
  | cons p rest ih =>
    intro i total par g
    simp only [sa_chain_foldS, sa_chain_fold, Grid.get_costS]
    split
    · exact ih _ _ _ _
    · exact ih _ _ _ _

/-- `SimulatedAnnealingPlanner.plan` with the world model threaded in and
out (including through the seeding A* search). -/
def SimulatedAnnealingPlanner.planS (sa : SimulatedAnnealingPlanner) (fuel : Nat)
    (choices : List SAChoice) (sx sy gx gy st : Int) : Option Node × Grid :=
  let ar := AStarPlanner.planS sa.grid fuel sx sy gx gy st
  match ar.1 with
  | none => (none, ar.2)
  | some node =>
    let s0 : SAState :=
      { current_path := node.get_path, current_cost := node.cost,
        temperature := sa.initial_temp }
    let lr := sa_loopS sa.cooling_rate st (choices.take sa.max_iterations) s0 ar.2
    if lr.1.current_path.isEmpty then (none, lr.2)
    else sa_chain_foldS st lr.1.current_path 0 0 none lr.2

theorem sa_planS_eq (g : Grid) (mits : Nat) (it cr : ℚ) (fuel : Nat)
    (choices : List SAChoice) (sx sy gx gy st : Int) :
    (SimulatedAnnealingPlanner.init g mits it cr).planS fuel choices sx sy gx gy st =
      ((SimulatedAnnealingPlanner.init g mits it cr).plan fuel choices sx sy gx gy st,
        g) := by
  simp only [SimulatedAnnealingPlanner.planS, SimulatedAnnealingPlanner.plan,
    SimulatedAnnealingPlanner.init, AStarPlanner.planS, AStarPlanner.plan,
    astar_loopS_eq]
  cases astar_loop g gx gy fuel
      [(manhattan_distance sx sy gx gy, Node.root sx sy 0 st)] [(sx, sy, st)] with
  | none => rfl
  | some seed =>
    dsimp only
    rw [sa_loopS_eq]
    dsimp only
    split
    · rfl
    · rw [sa_chain_foldS_eq]

section Claim9

/-- C9: no planner mutates the World Model. Each `plan` is re-expressed in
state-passing style, threading the `Grid` value — static occupancy, terrain
and the moving-obstacle list with every obstacle's current index, step
counter and position — through every grid call the source makes
(`is_valid`, `get_cost`, and obstacle prediction inside `is_valid`); the
threaded versions return the result of the original `plan` together with the
world model exactly as it was passed in, for all four planners. The planners
only predict future obstacle positions via `get_position_at_time`; none of
them ever calls `move`, `add_obstacle`, `set_terrain` or
`update_moving_obstacles`. -/
theorem planners_leave_world_model_unchanged (g : Grid) (fuel mits : Nat)
    (it cr : ℚ) (choices : List SAChoice) (sx sy gx gy st : Int) :
    BFSPlanner.planS g fuel sx sy gx gy st =
        (BFSPlanner.plan g fuel sx sy gx gy st, g) ∧
      UCSPlanner.planS g fuel sx sy gx gy st =
        (UCSPlanner.plan g fuel sx sy gx gy st, g) ∧
      AStarPlanner.planS g fuel sx sy gx gy st =
        (AStarPlanner.plan g fuel sx sy gx gy st, g) ∧
      (SimulatedAnnealingPlanner.init g mits it cr).planS fuel choices
          sx sy gx gy st =
        ((SimulatedAnnealingPlanner.init g mits it cr).plan fuel choices
          sx sy gx gy st, g) :=
  ⟨bfs_loopS_eq gx gy fuel _ _ g, ucs_loopS_eq gx gy fuel _ _ g,
    astar_loopS_eq gx gy fuel _ _ g,
    sa_planS_eq g mits it cr fuel choices sx sy gx gy st⟩

end Claim9
